import Mathlib

/-!
Verification of the framed JSON-RPC transport of this repository: the
incremental newline-delimited decoder (`ReadBuffer.append` / `ReadBuffer.readMessage`),
the zod message schemas (`JSONRPCMessageSchema` of
`src/mcp-client-L1/experiment2.5-raw-stdio-client.ts`), the server dispatch loop of
`src/mcp-servers/server-evolution/experiment1-stdio-server.ts`, and the client
correlation table of `src/mcp-client-L1/experiment3-raw-stdio-client.ts`.

JavaScript values that flow through the transport are modelled by the `Json`
type below.  Numbers are carried as a decimal mantissa/exponent pair
`(m, e)` denoting `m * 10 ^ e`; this covers every numeric literal JSON admits
(double-precision rounding of the host language is out of scope, and every
value the claims exercise is a small integer).  Strings are lists of unicode
scalar values; a lone surrogate produced by a `\uXXXX` escape is modelled as
U+FFFD, matching what the byte pipeline of the transport produces for
unpaired surrogates.
-/

/-! ## The JSON data model -/

mutual
inductive Json where
  | null : Json
  | bool (b : Bool) : Json
  | num (mantissa : Int) (exp10 : Int) : Json
  | str (s : List Char) : Json
  | arr (elems : JsonL) : Json
  | obj (fields : JsonO) : Json
deriving DecidableEq

inductive JsonL where
  | nil : JsonL
  | cons (hd : Json) (tl : JsonL) : JsonL
deriving DecidableEq

inductive JsonO where
  | nil : JsonO
  | cons (key : List Char) (val : Json) (tl : JsonO) : JsonO
deriving DecidableEq
end

/-- Field lookup in a JSON object, first occurrence (objects built by the
parser carry each key at most once, as JavaScript objects do). -/
def objGet : JsonO → List Char → Option Json
  | .nil, _ => none
  | .cons k v tl, key => if k = key then some v else objGet tl key

/-- Does the object carry the key (the `key in data` test of JavaScript)? -/
def objHas (o : JsonO) (key : List Char) : Bool :=
  (objGet o key).isSome

/-- Is the key among the keys of the object? -/
def keyMem : List Char → JsonO → Bool
  | _, .nil => false
  | key, .cons k _ tl => k = key || keyMem key tl

/-- All keys of the object are pairwise distinct. -/
def keysOk : JsonO → Bool
  | .nil => true
  | .cons k _ tl => !keyMem k tl && keysOk tl

/-- Assignment `data[k] = v` on a JavaScript object: an existing binding is
updated in place, a new key is appended at the end. -/
def insertObj : JsonO → List Char → Json → JsonO
  | .nil, key, v => .cons key v .nil
  | .cons k w tl, key, v =>
    if k = key then .cons k v tl else .cons k w (insertObj tl key v)

/-- Replay a list of parsed members through JavaScript object assignment:
a repeated key keeps its first position and its last value. -/
def objAssign : JsonO → JsonO → JsonO
  | acc, .nil => acc
  | acc, .cons k v tl => objAssign (insertObj acc k v) tl

mutual
/-- Well-formed values: every object, at every depth, has pairwise distinct
keys.  Every value a JavaScript program can hold satisfies this; the
predicate only excludes artefacts of the list-of-pairs representation. -/
def wfJ : Json → Bool
  | .null => true
  | .bool _ => true
  | .num _ _ => true
  | .str _ => true
  | .arr xs => wfL xs
  | .obj fs => keysOk fs && wfO fs

def wfL : JsonL → Bool
  | .nil => true
  | .cons x tl => wfJ x && wfL tl

def wfO : JsonO → Bool
  | .nil => true
  | .cons _ v tl => wfJ v && wfO tl
end

/-! ## Serialization: the model of `JSON.stringify`

`JSON.stringify` emits no whitespace, writes object fields in order, escapes
`"` and `\` and the control characters (with the short escapes for
backspace, tab, line feed, form feed and carriage return), and leaves every
other character literal. -/

/-- Decimal digit character. -/
def digitChar (d : Nat) : Char := Char.ofNat (48 + d)

/-- Lower-case hexadecimal digit character. -/
def hexChar (d : Nat) : Char :=
  if d < 10 then Char.ofNat (48 + d) else Char.ofNat (87 + d)

/-- Decimal digits of a natural number, most significant first; the fuel is
an upper bound on the recursion depth. -/
def natDigitsAux : Nat → Nat → List Char → List Char
  | 0, _, acc => acc
  | fuel + 1, n, acc =>
    if n < 10 then digitChar n :: acc
    else natDigitsAux fuel (n / 10) (digitChar (n % 10) :: acc)

/-- Decimal digits of a natural number, most significant first. -/
def natDigits (n : Nat) : List Char := natDigitsAux (n + 1) n []

/-- Decimal rendering of an integer. -/
def intChars (i : Int) : List Char :=
  if i < 0 then '-' :: natDigits i.natAbs else natDigits i.toNat

/-- Rendering of a JSON number `m * 10 ^ e`: plain decimal when `e = 0`,
exponent notation otherwise. -/
def numChars (m e : Int) : List Char :=
  if e = 0 then intChars m else intChars m ++ 'e' :: intChars e

/-- Escape of one character inside a JSON string literal. -/
def escChar (c : Char) : List Char :=
  if c = '"' then ['\\', '"']
  else if c = '\\' then ['\\', '\\']
  else if c.toNat = 8 then ['\\', 'b']
  else if c.toNat = 9 then ['\\', 't']
  else if c.toNat = 10 then ['\\', 'n']
  else if c.toNat = 12 then ['\\', 'f']
  else if c.toNat = 13 then ['\\', 'r']
  else if c.toNat < 32 then
    ['\\', 'u', '0', '0', hexChar (c.toNat / 16), hexChar (c.toNat % 16)]
  else [c]

/-- Escape of a whole string body. -/
def escStr : List Char → List Char
  | [] => []
  | c :: cs => escChar c ++ escStr cs

/-- A JSON string literal with its quotes. -/
def strLit (s : List Char) : List Char := '"' :: escStr s ++ ['"']

mutual
/-- The text `JSON.stringify` writes for a value. -/
def stringifyJ : Json → List Char
  | .null => "null".data
  | .bool true => "true".data
  | .bool false => "false".data
  | .num m e => numChars m e
  | .str s => strLit s
  | .arr xs => '[' :: stringifyL xs ++ [']']
  | .obj fs => '{' :: stringifyO fs ++ ['}']

/-- Comma-separated renderings of array elements. -/
def stringifyL : JsonL → List Char
  | .nil => []
  | .cons x .nil => stringifyJ x
  | .cons x (.cons y tl) => stringifyJ x ++ ',' :: stringifyL (.cons y tl)

/-- Comma-separated renderings of object members. -/
def stringifyO : JsonO → List Char
  | .nil => []
  | .cons k v .nil => strLit k ++ ':' :: stringifyJ v
  | .cons k v (.cons k2 v2 tl) =>
    strLit k ++ ':' :: stringifyJ v ++ ',' :: stringifyO (.cons k2 v2 tl)
end

/-! ## Parsing: the model of `JSON.parse`

A strict recursive-descent parser for the JSON grammar: whitespace between
tokens, no leading zeros, at least one digit in fraction and exponent, raw
control characters forbidden inside strings, the usual escapes.  The fuel
argument bounds the nesting depth; the entry point supplies one more than
the input length, which the fuel lemmas below show is always enough. -/

/-- JSON whitespace skip. -/
def skipWs : List Char → List Char
  | [] => []
  | c :: cs =>
    if c = ' ' ∨ c.toNat = 9 ∨ c.toNat = 10 ∨ c.toNat = 13 then skipWs cs
    else c :: cs

/-- Value of a hexadecimal digit character. -/
def hexVal (c : Char) : Option Nat :=
  if 48 ≤ c.toNat ∧ c.toNat ≤ 57 then some (c.toNat - 48)
  else if 97 ≤ c.toNat ∧ c.toNat ≤ 102 then some (c.toNat - 87)
  else if 65 ≤ c.toNat ∧ c.toNat ≤ 70 then some (c.toNat - 55)
  else none

/-- Is the character an ASCII decimal digit? -/
def isDig (c : Char) : Bool := 48 ≤ c.toNat && c.toNat ≤ 57

/-- Consume a run of decimal digits, folding them onto an accumulator;
returns the value, the number of digits consumed and the rest. -/
def digRun : List Char → Nat → Nat → Nat × Nat × List Char
  | [], acc, cnt => (acc, cnt, [])
  | c :: cs, acc, cnt =>
    if isDig c then digRun cs (acc * 10 + (c.toNat - 48)) (cnt + 1)
    else (acc, cnt, c :: cs)

/-- Parse the integer part of a JSON number (after the optional sign):
either a single `0`, or a nonzero digit followed by more digits.  A digit
after a leading `0` is a syntax error. -/
def parseIntPart : List Char → Option (Nat × List Char)
  | [] => none
  | c :: cs =>
    if c.toNat = 48 then
      match cs with
      | [] => some (0, [])
      | d :: ds => if isDig d then none else some (0, d :: ds)
    else if isDig c then
      let (v, _, r) := digRun cs (c.toNat - 48) 1
      some (v, r)
    else none

/-- Parse the optional fraction: mantissa and exponent deltas. -/
def parseFrac (v : Nat) : List Char → Option (Nat × Nat × List Char)
  | [] => some (v, 0, [])
  | c :: cs =>
    if c = '.' then
      let (f, cnt, r) := digRun cs 0 0
      if cnt = 0 then none else some (v * 10 ^ cnt + f, cnt, r)
    else some (v, 0, c :: cs)

/-- Parse the optional exponent marker with its signed digits. -/
def parseExp : List Char → Option (Int × List Char)
  | [] => some (0, [])
  | c :: cs =>
    if c = 'e' ∨ c = 'E' then
      match cs with
      | [] => none
      | d :: ds =>
        if d = '-' then
          let (x, cnt, r) := digRun ds 0 0
          if cnt = 0 then none else some (-(x : Int), r)
        else if d = '+' then
          let (x, cnt, r) := digRun ds 0 0
          if cnt = 0 then none else some ((x : Int), r)
        else
          let (x, cnt, r) := digRun (d :: ds) 0 0
          if cnt = 0 then none else some ((x : Int), r)
    else some (0, c :: cs)

/-- Parse a JSON number token into its mantissa/exponent pair. -/
def parseNum (s : List Char) : Option ((Int × Int) × List Char) :=
  match s with
  | [] => none
  | c :: cs =>
    if c = '-' then
      (parseIntPart cs).bind fun (v, r1) =>
        (parseFrac v r1).bind fun (v2, fcnt, r2) =>
          (parseExp r2).map fun (ex, r3) => ((-(v2 : Int), ex - fcnt), r3)
    else
      (parseIntPart (c :: cs)).bind fun (v, r1) =>
        (parseFrac v r1).bind fun (v2, fcnt, r2) =>
          (parseExp r2).map fun (ex, r3) => (((v2 : Int), ex - fcnt), r3)

/-- Decoding of one escape sequence after a backslash: the characters it
denotes and the rest of the input.  A `\uXXXX` escape yields its scalar,
surrogate pairs are combined, and an unpaired surrogate denotes U+FFFD. -/
def parseEscTok : List Char → Option (List Char × List Char)
  | [] => none
  | e :: cs =>
    if e = '"' then some (['"'], cs)
    else if e = '\\' then some (['\\'], cs)
    else if e = '/' then some (['/'], cs)
    else if e = 'b' then some ([Char.ofNat 8], cs)
    else if e = 'f' then some ([Char.ofNat 12], cs)
    else if e = 'n' then some ([Char.ofNat 10], cs)
    else if e = 'r' then some ([Char.ofNat 13], cs)
    else if e = 't' then some ([Char.ofNat 9], cs)
    else if e = 'u' then
      match cs with
      | h1 :: h2 :: h3 :: h4 :: rest =>
        match hexVal h1, hexVal h2, hexVal h3, hexVal h4 with
        | some a, some b, some c', some d =>
          let cp := a * 4096 + b * 256 + c' * 16 + d
          if 0xD800 ≤ cp ∧ cp ≤ 0xDBFF then
            match rest with
            | '\\' :: 'u' :: g1 :: g2 :: g3 :: g4 :: rest2 =>
              match hexVal g1, hexVal g2, hexVal g3, hexVal g4 with
              | some a2, some b2, some c2, some d2 =>
                let lo := a2 * 4096 + b2 * 256 + c2 * 16 + d2
                if 0xDC00 ≤ lo ∧ lo ≤ 0xDFFF then
                  some ([Char.ofNat (0x10000 + (cp - 0xD800) * 1024 + (lo - 0xDC00))], rest2)
                else some ([Char.ofNat 0xFFFD], rest)
              | _, _, _, _ => none
            | _ => some ([Char.ofNat 0xFFFD], rest)
          else if 0xDC00 ≤ cp ∧ cp ≤ 0xDFFF then
            some ([Char.ofNat 0xFFFD], rest)
          else
            some ([Char.ofNat cp], rest)
        | _, _, _, _ => none
      | _ => none
    else none

/-- Parse the body of a string literal after its opening quote, up to and
including the closing quote.  Unescaped control characters are rejected.
The fuel bounds the number of consumed tokens; one more than the input
length is always enough. -/
def parseStrAux : Nat → List Char → Option (List Char × List Char)
  | 0, _ => none
  | _, [] => none
  | fuel + 1, c :: cs =>
    if c = '"' then some ([], cs)
    else if c = '\\' then
      match parseEscTok cs with
      | none => none
      | some (out, rest) =>
        (parseStrAux fuel rest).map fun (s, r) => (out ++ s, r)
    else if c.toNat < 32 then none
    else (parseStrAux fuel cs).map fun (s, r) => (c :: s, r)

/-- String-literal body parse with sufficient fuel. -/
def parseStrBody (cs : List Char) : Option (List Char × List Char) :=
  parseStrAux (cs.length + 1) cs

mutual
/-- Parse one JSON value after skipping leading whitespace. -/
def parseVal : Nat → List Char → Option (Json × List Char)
  | 0, _ => none
  | fuel + 1, s =>
    match skipWs s with
    | [] => none
    | c :: cs =>
      if c = 'n' then
        match cs with
        | 'u' :: 'l' :: 'l' :: r => some (.null, r)
        | _ => none
      else if c = 't' then
        match cs with
        | 'r' :: 'u' :: 'e' :: r => some (.bool true, r)
        | _ => none
      else if c = 'f' then
        match cs with
        | 'a' :: 'l' :: 's' :: 'e' :: r => some (.bool false, r)
        | _ => none
      else if c = '"' then
        (parseStrBody cs).map fun (s', r) => (.str s', r)
      else if c = '[' then
        match skipWs cs with
        | [] => (parseElems fuel []).map fun (xs, r) => (.arr xs, r)
        | c' :: cs' =>
          if c' = ']' then some (.arr .nil, cs')
          else (parseElems fuel (c' :: cs')).map fun (xs, r) => (.arr xs, r)
      else if c = '{' then
        match skipWs cs with
        | [] => (parseMembers fuel []).map fun (fs, r) =>
            (.obj (objAssign .nil fs), r)
        | c' :: cs' =>
          if c' = '}' then some (.obj .nil, cs')
          else (parseMembers fuel (c' :: cs')).map fun (fs, r) =>
            (.obj (objAssign .nil fs), r)
      else
        (parseNum (c :: cs)).map fun (n, r) => (.num n.1 n.2, r)

/-- Parse a nonempty comma-separated list of array elements and the closing
bracket. -/
def parseElems : Nat → List Char → Option (JsonL × List Char)
  | 0, _ => none
  | fuel + 1, s =>
    (parseVal fuel s).bind fun (v, r) =>
      match skipWs r with
      | [] => none
      | c :: r' =>
        if c = ']' then some (.cons v .nil, r')
        else if c = ',' then
          (parseElems fuel r').map fun (tl, r'') => (.cons v tl, r'')
        else none

/-- Parse a nonempty comma-separated list of object members (in source
order, repeats kept) and the closing brace. -/
def parseMembers : Nat → List Char → Option (JsonO × List Char)
  | 0, _ => none
  | fuel + 1, s =>
    match skipWs s with
    | [] => none
    | c0 :: ks =>
      if c0 = '"' then
        (parseStrBody ks).bind fun (k, r) =>
          match skipWs r with
          | [] => none
          | c1 :: r' =>
            if c1 = ':' then
              (parseVal fuel r').bind fun (v, r'') =>
                match skipWs r'' with
                | [] => none
                | c2 :: r3 =>
                  if c2 = '}' then some (.cons k v .nil, r3)
                  else if c2 = ',' then
                    (parseMembers fuel r3).map fun (tl, r4) => (.cons k v tl, r4)
                  else none
            else none
      else none
end

/-- The model of `JSON.parse`: parse one value, allow trailing whitespace,
reject trailing content. -/
def parseJson (s : List Char) : Option Json :=
  match parseVal (s.length + 1) s with
  | some (j, r) => if skipWs r = [] then some j else none
  | none => none

/-! ## UTF-8 bytes

The transport operates on byte buffers (`node:Buffer`); chunk boundaries may
fall anywhere, including inside a multi-byte character, so the buffer is a
list of bytes and text conversion is explicit.  `utf8Decode` models
`Buffer.toString("utf-8")`: strict UTF-8 with U+FFFD for invalid sequences. -/

/-- UTF-8 encoding of one unicode scalar value. -/
def utf8EncodeChar (c : Char) : List Nat :=
  let n := c.toNat
  if n < 0x80 then [n]
  else if n < 0x800 then [0xC0 + n / 64, 0x80 + n % 64]
  else if n < 0x10000 then
    [0xE0 + n / 4096, 0x80 + n / 64 % 64, 0x80 + n % 64]
  else
    [0xF0 + n / 262144, 0x80 + n / 4096 % 64, 0x80 + n / 64 % 64, 0x80 + n % 64]

/-- UTF-8 encoding of a string. -/
def utf8Encode : List Char → List Nat
  | [] => []
  | c :: cs => utf8EncodeChar c ++ utf8Encode cs

/-- Is the byte a UTF-8 continuation byte? -/
def isCont (b : Nat) : Bool := 0x80 ≤ b && b < 0xC0

/-- The replacement character U+FFFD. -/
def replChar : Char := Char.ofNat 0xFFFD

/-- UTF-8 decoding with replacement of invalid sequences; the fuel bounds
the number of decoded characters, one more than the byte count is always
enough. -/
def utf8DecodeAux : Nat → List Nat → List Char
  | 0, _ => []
  | _ + 1, [] => []
  | fuel + 1, b0 :: bs =>
    if b0 < 0x80 then Char.ofNat b0 :: utf8DecodeAux fuel bs
    else if b0 < 0xC2 then replChar :: utf8DecodeAux fuel bs
    else if b0 < 0xE0 then
      match bs with
      | b1 :: bs' =>
        if isCont b1 then
          Char.ofNat ((b0 - 0xC0) * 64 + (b1 - 0x80)) :: utf8DecodeAux fuel bs'
        else replChar :: utf8DecodeAux fuel bs
      | [] => [replChar]
    else if b0 < 0xF0 then
      match bs with
      | b1 :: b2 :: bs' =>
        if isCont b1 && isCont b2
            && !(b0 = 0xE0 && b1 < 0xA0) && !(b0 = 0xED && 0xA0 ≤ b1) then
          Char.ofNat ((b0 - 0xE0) * 4096 + (b1 - 0x80) * 64 + (b2 - 0x80))
            :: utf8DecodeAux fuel bs'
        else replChar :: utf8DecodeAux fuel bs
      | _ => replChar :: utf8DecodeAux fuel bs
    else if b0 < 0xF5 then
      match bs with
      | b1 :: b2 :: b3 :: bs' =>
        if isCont b1 && isCont b2 && isCont b3
            && !(b0 = 0xF0 && b1 < 0x90) && !(b0 = 0xF4 && 0x90 ≤ b1) then
          Char.ofNat ((b0 - 0xF0) * 262144 + (b1 - 0x80) * 4096 + (b2 - 0x80) * 64 + (b3 - 0x80))
            :: utf8DecodeAux fuel bs'
        else replChar :: utf8DecodeAux fuel bs
      | _ => replChar :: utf8DecodeAux fuel bs
    else replChar :: utf8DecodeAux fuel bs

/-- UTF-8 decoding with sufficient fuel. -/
def utf8Decode (bs : List Nat) : List Char := utf8DecodeAux (bs.length + 1) bs

/-- Bytes of a Lean string literal, used to write concrete wire inputs. -/
def strBytes (s : String) : List Nat := utf8Encode s.data

/-! ## The zod message schemas

Models of the schemas of `experiment2.5-raw-stdio-client.ts` (lines 5-15,
23-26, 54-57, 65-72, 159-164), with zod v3 semantics: objects in strip mode
drop unknown keys and rebuild the output in shape-key order; a field whose
schema accepts `undefined` (`z.unknown()`, `.optional()`) is omitted from
the output when the key is absent from the input; `z.union` returns the
first branch that accepts. -/

def jsonrpcK : List Char := "jsonrpc".data
def methodK : List Char := "method".data
def paramsK : List Char := "params".data
def idK : List Char := "id".data
def resultK : List Char := "result".data
def errorK : List Char := "error".data
def codeK : List Char := "code".data
def messageK : List Char := "message".data
def dataK : List Char := "data".data
def ver20 : List Char := "2.0".data

/-- Lower-case image of an ASCII upper-case letter, identity otherwise (the
case folding the `/i` regexp flag applies to ASCII). -/
def lowerAscii (c : Char) : Char :=
  if 65 ≤ c.toNat ∧ c.toNat ≤ 90 then Char.ofNat (c.toNat + 32) else c

/-- The test `/^rpc\./i.test(method)` of the `method` refinement: the first
four characters, case-folded, spell `rpc.`. -/
def rpcReserved (s : List Char) : Bool :=
  (s.take 4).map lowerAscii = ['r', 'p', 'c', '.']

/-- The id schema `z.union([z.number(), z.string().min(1)])`: any number, or
a nonempty string. -/
def isValidRpcId : Json → Bool
  | .num _ _ => true
  | .str s => !s.isEmpty
  | _ => false

/-- Model of `jsonrpcSchemaRequest.safeParse`: requires the `"2.0"` tag, a
string method without the reserved `rpc.` prefix, an optional `params` of
any shape, and an optional valid id; the output keeps exactly the declared
keys that were present. -/
def safeParseRequest : Json → Option Json
  | .obj o =>
    if objGet o jsonrpcK = some (.str ver20) then
      match objGet o methodK with
      | some (.str m) =>
        if rpcReserved m then none
        else
          let tail : JsonO → JsonO := fun rest =>
            match objGet o paramsK with
            | some p => .cons paramsK p rest
            | none => rest
          match objGet o idK with
          | some idv =>
            if isValidRpcId idv then
              some (.obj (.cons jsonrpcK (.str ver20)
                (.cons methodK (.str m) (tail (.cons idK idv .nil)))))
            else none
          | none =>
            some (.obj (.cons jsonrpcK (.str ver20)
              (.cons methodK (.str m) (tail .nil))))
      | _ => none
    else none
  | _ => none

/-- Model of `jsonrpcSchemaNotification.safeParse` (the request schema with
`id` and `params` omitted): only `jsonrpc` and `method` survive. -/
def safeParseNotification : Json → Option Json
  | .obj o =>
    if objGet o jsonrpcK = some (.str ver20) then
      match objGet o methodK with
      | some (.str m) =>
        if rpcReserved m then none
        else some (.obj (.cons jsonrpcK (.str ver20) (.cons methodK (.str m) .nil)))
      | _ => none
    else none
  | _ => none

/-- Model of `jsonrpcSchemaResponse.safeParse`: `result` is `z.unknown()`,
so a missing `result` key is accepted (and then absent from the output);
the id is mandatory. -/
def safeParseResponse : Json → Option Json
  | .obj o =>
    if objGet o jsonrpcK = some (.str ver20) then
      let tail : JsonO → JsonO := fun rest =>
        match objGet o resultK with
        | some r => .cons resultK r rest
        | none => rest
      match objGet o idK with
      | some idv =>
        if isValidRpcId idv then
          some (.obj (.cons jsonrpcK (.str ver20) (tail (.cons idK idv .nil))))
        else none
      | none => none
    else none
  | _ => none

/-- Model of `jsonrpcSchemaError.safeParse`: a mandatory `error` object with
numeric `code`, string `message` and optional `data`, and a mandatory
nullable id. -/
def safeParseError : Json → Option Json
  | .obj o =>
    if objGet o jsonrpcK = some (.str ver20) then
      match objGet o errorK with
      | some (.obj eo) =>
        match objGet eo codeK, objGet eo messageK with
        | some (.num cm ce), some (.str msg) =>
          let etail : JsonO :=
            match objGet eo dataK with
            | some d => .cons dataK d .nil
            | none => .nil
          match objGet o idK with
          | some idv =>
            if isValidRpcId idv || idv = .null then
              some (.obj (.cons jsonrpcK (.str ver20)
                (.cons errorK (.obj (.cons codeK (.num cm ce)
                  (.cons messageK (.str msg) etail)))
                (.cons idK idv .nil))))
            else none
          | none => none
        | _, _ => none
      | _ => none
    else none
  | _ => none

/-- Model of `JSONRPCMessageSchema.safeParse`: the union tries the request,
notification, success-response and error branches in order. -/
def safeParseMessage (j : Json) : Option Json :=
  match safeParseRequest j with
  | some out => some out
  | none =>
    match safeParseNotification j with
    | some out => some out
    | none =>
      match safeParseResponse j with
      | some out => some out
      | none => safeParseError j

/-! ## The frame decoder

Model of `ReadBuffer` (`experiment2.5-raw-stdio-client.ts` lines 264-297):
a single optional byte buffer; `append` concatenates; `readMessage` splits
at the first line feed, decodes the line as UTF-8, strips one trailing
carriage return, runs `JSON.parse` — whose failure *throws* out of
`readMessage`, modelled by `Except.error`, with the buffer already advanced
past the line — and finally validates against the message schema, a failure
of which yields `null` (`Except.ok none`). -/

/-- Split a list at the first occurrence of an element: prefix before it and
suffix after it. -/
def splitAtFirst (x : Nat) : List Nat → Option (List Nat × List Nat)
  | [] => none
  | b :: bs =>
    if b = x then some ([], bs)
    else (splitAtFirst x bs).map fun (pre, post) => (b :: pre, post)

/-- Strip one trailing carriage return from a decoded line: the model of
`line.replace(/\r$/, "")`. -/
def stripCr (l : List Char) : List Char :=
  match l.getLast? with
  | some c => if c.toNat = 13 then l.dropLast else l
  | none => l

/-- Processing of one extracted line: UTF-8 decode, strip `\r`, `JSON.parse`
(throw on failure), schema validation (`null` on failure). -/
def lineToMessage (bytes : List Nat) : Except Unit (Option Json) :=
  match parseJson (stripCr (utf8Decode bytes)) with
  | none => .error ()
  | some j => .ok (safeParseMessage j)

/-- The decoder state: `none` before any `append` and after `clear`. -/
abbrev ReadBuffer : Type := Option (List Nat)

/-- Model of `ReadBuffer.append`. -/
def rbAppend (rb : ReadBuffer) (data : List Nat) : ReadBuffer :=
  match rb with
  | some b => some (b ++ data)
  | none => some data

/-- Model of `ReadBuffer.clear`. -/
def rbClear (_ : ReadBuffer) : ReadBuffer := none

/-- Model of `ReadBuffer.readMessage`: returns the decoder state after the
call together with its outcome — `ok none` for "no message" (no complete
line, or schema rejection), `ok (some m)` for a delivered message, and
`error` for a thrown `JSON.parse` failure.  The buffer is advanced past the
consumed line in all outcomes that consumed one, because the code reassigns
the buffer before parsing. -/
def rbReadMessage (rb : ReadBuffer) : ReadBuffer × Except Unit (Option Json) :=
  match rb with
  | none => (none, .ok none)
  | some b =>
    match splitAtFirst 10 b with
    | none => (some b, .ok none)
    | some (pre, post) => (some post, lineToMessage pre)

/-- Decidable equality for `Except`, used to evaluate outcomes in the
witnesses below. -/
instance {e a : Type} [DecidableEq e] [DecidableEq a] : DecidableEq (Except e a) := fun x y =>
  match x, y with
  | .error x1, .error y1 =>
    if h : x1 = y1 then isTrue (by rw [h]) else isFalse (by intro hh; cases hh; exact h rfl)
  | .ok x1, .ok y1 =>
    if h : x1 = y1 then isTrue (by rw [h]) else isFalse (by intro hh; cases hh; exact h rfl)
  | .error _, .ok _ => isFalse (by intro hh; cases hh)
  | .ok _, .error _ => isFalse (by intro hh; cases hh)

/-! ## The transport read loop

Model of the `while (true)` loop of the `data` handler: keep calling
`readMessage` until it returns `null`; a throw escapes the loop.  The fuel
bounds the number of iterations, one more than the buffer length is always
enough because every message consumes at least its line feed byte. -/

/-- Drain the buffer: the messages delivered in order and the buffer left
behind, or the error thrown by `JSON.parse`. -/
def drainAux : Nat → List Nat → Except Unit (List Json × List Nat)
  | 0, b => .ok ([], b)
  | fuel + 1, b =>
    match splitAtFirst 10 b with
    | none => .ok ([], b)
    | some (pre, post) =>
      match lineToMessage pre with
      | .error e => .error e
      | .ok none => .ok ([], post)
      | .ok (some m) =>
        match drainAux fuel post with
        | .error e => .error e
        | .ok (ms, b') => .ok (m :: ms, b')

/-- Drain with sufficient fuel. -/
def drain (b : List Nat) : Except Unit (List Json × List Nat) :=
  drainAux (b.length + 1) b

/-- Feed chunks one after the other, draining after every `append`, as the
`data` handler does; returns all delivered messages and the final buffer. -/
def feedChunks : List Nat → List (List Nat) → Except Unit (List Json × List Nat)
  | buf, [] => .ok ([], buf)
  | buf, c :: cs =>
    match drain (buf ++ c) with
    | .error e => .error e
    | .ok (ms, buf') =>
      match feedChunks buf' cs with
      | .error e => .error e
      | .ok (ms', buf'') => .ok (ms ++ ms', buf'')

/-- The newline-terminated wire bytes of one message. -/
def encLine (m : Json) : List Nat := utf8Encode (stringifyJ m)

/-- The wire bytes of a message sequence: `JSON.stringify(m) + "\n"` for
each message, concatenated. -/
def encodeStream : List Json → List Nat
  | [] => []
  | m :: ms => encLine m ++ 10 :: encodeStream ms

/-- Concatenation of a chunk list: the bytes the chunks carry overall. -/
def joinChunks : List (List Nat) → List Nat
  | [] => []
  | c :: cs => c ++ joinChunks cs

/-! ## The SDK message guards and the server dispatcher

`experiment1-stdio-server.ts` classifies inbound messages with
`isJSONRPCNotification` / `isJSONRPCRequest` from
`@modelcontextprotocol/sdk/types.js`; both are `safeParse` successes of
strict zod objects: a request is exactly
`{jsonrpc:"2.0", id: string|integer, method: string, params?: object}` and
a notification is exactly `{jsonrpc:"2.0", method: string, params?: object}`
(the optional `params`, when present, must be an object whose optional
`_meta` is an object). -/

def metaK : List Char := "_meta".data
def progressK : List Char := "progressToken".data

/-- Is the value an integer-valued JSON number (`z.number().int()`)? -/
def isIntNum : Json → Bool
  | .num m e => 0 ≤ e || m % (10 ^ e.natAbs : Int) = 0
  | _ => false

/-- The SDK request id: `z.union([z.string(), z.number().int()])`. -/
def isSdkId (j : Json) : Bool :=
  match j with
  | .str _ => true
  | _ => isIntNum j

/-- Every key of the object is among the allowed ones (the `.strict()`
check). -/
def keysAmong : JsonO → List (List Char) → Bool
  | .nil, _ => true
  | .cons k _ tl, allowed => allowed.any (fun a => a = k) && keysAmong tl allowed

/-- The `_meta` member of a params object, when present, must itself be an
object whose optional `progressToken` is a string or an integer. -/
def metaOk (p : JsonO) : Bool :=
  match objGet p metaK with
  | none => true
  | some (.obj mo) =>
    match objGet mo progressK with
    | none => true
    | some t => isSdkId t
  | some _ => false

/-- The optional `params` field: absent, or an object with a valid `_meta`. -/
def paramsOk (o : JsonO) : Bool :=
  match objGet o paramsK with
  | none => true
  | some (.obj p) => metaOk p
  | some _ => false

/-- Model of the SDK guard `isJSONRPCRequest`. -/
def isJSONRPCRequest : Json → Bool
  | .obj o =>
    keysAmong o [jsonrpcK, idK, methodK, paramsK]
      && objGet o jsonrpcK = some (.str ver20)
      && (match objGet o idK with
          | some idv => isSdkId idv
          | none => false)
      && (match objGet o methodK with
          | some (.str _) => true
          | _ => false)
      && paramsOk o
  | _ => false

/-- Model of the SDK guard `isJSONRPCNotification`. -/
def isJSONRPCNotification : Json → Bool
  | .obj o =>
    keysAmong o [jsonrpcK, methodK, paramsK]
      && objGet o jsonrpcK = some (.str ver20)
      && (match objGet o methodK with
          | some (.str _) => true
          | _ => false)
      && paramsOk o
  | _ => false

/-- A registered handler: called with the request, returns the response to
send, or throws (`Except.error`). -/
def Handler : Type := Json → Except Unit Json

/-- Handler lookup by exact method name (`Map.get`). -/
def lookupHandler : List (List Char × Handler) → List Char → Option Handler
  | [], _ => none
  | (k, h) :: tl, m => if k = m then some h else lookupHandler tl m

/-- The method-not-found error response the dispatcher synthesizes: code
`-32601`, the request's id, message `Method <name> not found`. -/
def methodNotFound (idv : Json) (m : List Char) : Json :=
  .obj (.cons jsonrpcK (.str ver20)
    (.cons idK idv
      (.cons errorK (.obj (.cons codeK (.num (-32601) 0)
        (.cons messageK (.str ("Method ".data ++ m ++ " not found".data)) .nil)))
        .nil)))

/-- Model of the `onMessage` dispatch of `experiment1-stdio-server.ts`
(lines 234-260): notifications are ignored; for a request, the handler
registered for its method is awaited and its return value sent, with no
catch around the call — a thrown handler failure escapes the dispatcher
(`Except.error`); an unregistered method gets the `-32601` error response;
anything else is ignored.  The result lists the messages sent. -/
def dispatchMessage (handlers : List (List Char × Handler)) (msg : Json) :
    Except Unit (List Json) :=
  if isJSONRPCNotification msg then .ok []
  else if isJSONRPCRequest msg then
    match msg with
    | .obj o =>
      match objGet o methodK with
      | some (.str m) =>
        match lookupHandler handlers m with
        | some h =>
          match h msg with
          | .error e => .error e
          | .ok resp => .ok [resp]
        | none =>
          .ok [methodNotFound ((objGet o idK).getD .null) m]
      | _ => .ok []
    | _ => .ok []
  else .ok []

/-! ## The client correlation table

Model of `experiment3-raw-stdio-client.ts`: `#_pendingRequests` is a
JavaScript `Map` from request-id keys to resolver callbacks.  Map keys obey
value equality (SameValueZero), so a numeric key is identified by the
rational it denotes; resolvers are named by slot identifiers and a
resolution log records which slot received which message. -/

/-- A JavaScript `Map` key as used for request ids: a string, a number in
canonical mantissa/exponent form, or `null`. -/
inductive JsKey where
  | str (s : List Char) : JsKey
  | num (m e : Int) : JsKey
  | null : JsKey
deriving DecidableEq

/-- Strip up to `k` trailing decimal zeros from the mantissa. -/
def stripTens : Int → Nat → Int × Int
  | m, 0 => (m, 0)
  | m, k + 1 =>
    if m % 10 = 0 then stripTens (m / 10) k
    else (m, -(k + 1 : Int))

/-- Canonical form of a JSON number, so that two spellings of one rational
collide as Map keys do under SameValueZero. -/
def canonNum (m e : Int) : Int × Int :=
  if m = 0 then (0, 0)
  else if 0 ≤ e then (m * (10 ^ e.natAbs : Int), 0)
  else stripTens m e.natAbs

/-- The Map key of a message id value. -/
def canonKey : Json → Option JsKey
  | .str s => some (.str s)
  | .num m e => some (.num (canonNum m e).1 (canonNum m e).2)
  | .null => some .null
  | _ => none

/-- Lookup in the pending-request map. -/
def mapGet : List (JsKey × Nat) → JsKey → Option Nat
  | [], _ => none
  | (k, v) :: tl, key => if k = key then some v else mapGet tl key

/-- `Map.set`: update an existing binding in place, append a new one. -/
def mapSet : List (JsKey × Nat) → JsKey → Nat → List (JsKey × Nat)
  | [], key, v => [(key, v)]
  | (k, w) :: tl, key, v =>
    if k = key then (k, v) :: tl else (k, w) :: mapSet tl key v

/-- `Map.delete`. -/
def mapDelete : List (JsKey × Nat) → JsKey → List (JsKey × Nat)
  | [], _ => []
  | (k, w) :: tl, key => if k = key then tl else (k, w) :: mapDelete tl key

/-- The client state: the pending map (id key to resolver slot) and the log
of resolved slots with the message each received. -/
structure ClientState where
  pending : List (JsKey × Nat)
  resolvedWith : List (Nat × Json)
deriving DecidableEq

/-- Registration of a pending request
(`this.#_pendingRequests.set(id, resolve)` in `listTools` / `callTool`). -/
def registerPending (st : ClientState) (key : JsKey) (slot : Nat) : ClientState :=
  { st with pending := mapSet st.pending key slot }

/-- Model of the client's `onMessage` callback (lines 340-351): a message
without an id field is ignored; otherwise the resolver registered under the
id's key, if any, is called with the whole message and its entry deleted;
an unknown id is ignored. -/
def clientOnMessage (st : ClientState) (msg : Json) : ClientState :=
  match msg with
  | .obj o =>
    match objGet o idK with
    | none => st
    | some idv =>
      match canonKey idv with
      | none => st
      | some key =>
        match mapGet st.pending key with
        | some slot =>
          { pending := mapDelete st.pending key,
            resolvedWith := (slot, msg) :: st.resolvedWith }
        | none => st
  | _ => st

/-- What a resolved slot received, if anything. -/
def slotResult (st : ClientState) (slot : Nat) : Option Json :=
  match st.resolvedWith.find? (fun p => p.1 = slot) with
  | some p => some p.2
  | none => none

/-- The transport-plus-client state for the close model. -/
structure TransportClientState where
  subProcessRunning : Bool
  readBuffer : ReadBuffer
  client : ClientState
deriving DecidableEq

/-- Model of `StdioClientTransport.close` (lines 234-237 of
`experiment3-raw-stdio-client.ts`): the subprocess reference is dropped and
the read buffer cleared; nothing else is touched. -/
def transportClose (st : TransportClientState) : TransportClientState :=
  { st with subProcessRunning := false, readBuffer := rbClear st.readBuffer }

/-! ## Auxiliary definitions for the proofs -/

mutual
/-- Parser-entry count of a value, the measure that bounds the fuel the
recursive-descent parser needs. -/
def szJ : Json → Nat
  | .null => 1
  | .bool _ => 1
  | .num _ _ => 1
  | .str _ => 1
  | .arr xs => szL xs + 1
  | .obj fs => szO fs + 1

def szL : JsonL → Nat
  | .nil => 0
  | .cons x tl => szJ x + szL tl + 1

def szO : JsonO → Nat
  | .nil => 0
  | .cons _ v tl => szJ v + szO tl + 1
end

/-- The rest of the input may follow a serialized value: empty, or starting
with a list/object delimiter (never a character that could extend a number
token). -/
def isDelim : List Char → Bool
  | [] => true
  | c :: _ => c = ',' || c = ']' || c = '}'

/-- The input does not start with a digit. -/
def headNotDig : List Char → Bool
  | [] => true
  | c :: _ => !isDig c

/-- Concatenation of object field lists. -/
def appendO : JsonO → JsonO → JsonO
  | .nil, o => o
  | .cons k v tl, o => .cons k v (appendO tl o)

/-- The numeric value of a digit run, folded onto an accumulator the way
`digRun` folds it. -/
def digitsVal : List Char → Nat → Nat
  | [], acc => acc
  | c :: cs, acc => digitsVal cs (acc * 10 + (c.toNat - 48))

/-! ## Concrete test vectors

Inputs for the evaluated instances of the theorems below: a small request
message, two correlated responses, a request for an unregistered method and
a notification-shaped line with an invalid id. -/

/-- The fields of the request `{"jsonrpc":"2.0","method":"x","id":1}`. -/
def mwO : JsonO :=
  .cons jsonrpcK (.str ver20) (.cons methodK (.str ['x']) (.cons idK (.num 1 0) .nil))

/-- The request message itself. -/
def mw : Json := .obj mwO

/-- The fields of the response carrying result `1` for id `1`. -/
def respW1 : JsonO :=
  .cons jsonrpcK (.str ver20) (.cons resultK (.num 1 0) (.cons idK (.num 1 0) .nil))

/-- The fields of the response carrying result `2` for id `2`. -/
def respW2 : JsonO :=
  .cons jsonrpcK (.str ver20) (.cons resultK (.num 2 0) (.cons idK (.num 2 0) .nil))

/-- The fields of a request whose method `boom` has a failing handler. -/
def reqWO : JsonO :=
  .cons jsonrpcK (.str ver20) (.cons idK (.num 1 0) (.cons methodK (.str "boom".data) .nil))

/-- The fields of a request whose method `foo` has no handler. -/
def reqW6O : JsonO :=
  .cons jsonrpcK (.str ver20) (.cons idK (.num 1 0) (.cons methodK (.str "foo".data) .nil))

/-- The fields of a line with a valid method and the invalid id `""`. -/
def o9 : JsonO :=
  .cons jsonrpcK (.str ver20) (.cons methodK (.str ['x']) (.cons idK (.str []) .nil))

/-! ## Character and digit lemmas -/

/-- The scalar value of `Char.ofNat` at a valid code point. -/
theorem toNat_ofNat_valid {n : Nat} (h : n.isValidChar) : (Char.ofNat n).toNat = n := by
  rw [Char.ofNat, dif_pos h]
  rfl

/-- Code points below the surrogate block are valid. -/
theorem isValidChar_of_lt {n : Nat} (h : n < 0xD800) : n.isValidChar := Or.inl h

theorem digitChar_toNat {d : Nat} (h : d < 10) : (digitChar d).toNat = 48 + d := by
  rw [digitChar, toNat_ofNat_valid (isValidChar_of_lt (by omega))]

theorem isDig_digitChar {d : Nat} (h : d < 10) : isDig (digitChar d) = true := by
  simp only [isDig, digitChar_toNat h, Bool.and_eq_true, decide_eq_true_eq]
  omega

/-- Unfolding of the fueled digit renderer at any sufficient fuel. -/
theorem natDigitsAux_eq : ∀ (n fuel : Nat) (acc : List Char), n < fuel →
    natDigitsAux fuel n acc = natDigits n ++ acc := by
  intro n
  induction n using Nat.strong_induction_on with
  | _ n ih =>
    intro fuel acc h
    match fuel, h with
    | fuel + 1, h =>
      by_cases h10 : n < 10
      · simp [natDigitsAux, natDigits, h10]
      · have hdiv : n / 10 < n := Nat.div_lt_self (by omega) (by omega)
        rw [natDigitsAux, if_neg h10, ih (n / 10) hdiv fuel _ (by omega)]
        conv_rhs =>
          rw [natDigits, natDigitsAux, if_neg h10,
            ih (n / 10) hdiv n _ (by omega)]
        simp

/-- Recursive characterization of `natDigits`. -/
theorem natDigits_eq (n : Nat) :
    natDigits n = if n < 10 then [digitChar n]
      else natDigits (n / 10) ++ [digitChar (n % 10)] := by
  by_cases h10 : n < 10
  · simp [natDigits, natDigitsAux, h10]
  · rw [natDigits, natDigitsAux, if_neg h10,
      natDigitsAux_eq (n / 10) n _ (by have := Nat.div_lt_self (show 0 < n by omega) (show 1 < 10 by omega); omega)]
    simp [h10]

/-- Every rendered digit is a digit character. -/
theorem natDigits_all_dig (n : Nat) : ∀ c ∈ natDigits n, isDig c = true := by
  induction n using Nat.strong_induction_on with
  | _ n ih =>
    rw [natDigits_eq]
    by_cases h10 : n < 10
    · simp [h10, isDig_digitChar h10]
    · simp only [if_neg h10, List.mem_append, List.mem_singleton]
      rintro c (hc | rfl)
      · exact ih (n / 10) (Nat.div_lt_self (by omega) (by omega)) c hc
      · exact isDig_digitChar (Nat.mod_lt _ (by omega))

/-- The digits render is never empty. -/
theorem natDigits_ne_nil (n : Nat) : natDigits n ≠ [] := by
  rw [natDigits_eq]
  by_cases h10 : n < 10 <;> simp [h10]

/-- The digit run reads back what the renderer wrote, folding onto any
accumulator, and leaves a non-digit rest alone. -/
theorem digRun_append_digits :
    ∀ (ds : List Char), (∀ c ∈ ds, isDig c = true) →
    ∀ (rest : List Char), headNotDig rest = true →
    ∀ (acc cnt : Nat),
    digRun (ds ++ rest) acc cnt = (digitsVal ds acc, cnt + ds.length, rest) := by
  intro ds
  induction ds with
  | nil =>
    intro _ rest hrest acc cnt
    match rest with
    | [] => simp [digRun, digitsVal]
    | c :: cs =>
      simp only [headNotDig, Bool.not_eq_true'] at hrest
      simp [digRun, hrest, digitsVal]
  | cons c cs ih =>
    intro hds rest hrest acc cnt
    have hc : isDig c = true := hds c (by simp)
    simp only [List.cons_append, digRun, hc, if_pos, List.append_eq]
    rw [ih (fun x hx => hds x (by simp [hx])) rest hrest]
    simp [digitsVal]
    omega

/-- The value of the rendered digits of `n`, folded onto an accumulator. -/
theorem digitsVal_natDigits (n : Nat) : ∀ acc, digitsVal (natDigits n) acc = acc * 10 ^ (natDigits n).length + n := by
  induction n using Nat.strong_induction_on with
  | _ n ih =>
    intro acc
    rw [natDigits_eq]
    by_cases h10 : n < 10
    · simp [h10, digitsVal, digitChar_toNat h10]
    · have hdiv : n / 10 < n := Nat.div_lt_self (by omega) (by omega)
      have hval : ∀ (l1 l2 : List Char) (a : Nat), digitsVal (l1 ++ l2) a = digitsVal l2 (digitsVal l1 a) := by
        intro l1
        induction l1 with
        | nil => simp [digitsVal]
        | cons x xs ihx => intro l2 a; simp [digitsVal, ihx]
      simp only [if_neg h10, hval, ih (n / 10) hdiv acc]
      simp [digitsVal, digitChar_toNat (Nat.mod_lt n (by omega)), List.length_append,
        pow_succ, Nat.mul_assoc, Nat.add_mul]
      generalize acc * 10 ^ (natDigits (n / 10)).length * 10 = Y
      omega

/-- Characters differ when their scalar values do. -/
theorem char_ne_of_toNat_ne {a b : Char} (h : a.toNat ≠ b.toNat) : a ≠ b := by
  intro hab
  exact h (by rw [hab])

/-- The rendered digits start with a digit character that is nonzero
whenever the number is. -/
theorem natDigits_head (n : Nat) :
    ∃ d tail, natDigits n = digitChar d :: tail ∧ d < 10 ∧ (1 ≤ n → 1 ≤ d) := by
  induction n using Nat.strong_induction_on with
  | _ n ih =>
    rw [natDigits_eq]
    by_cases h10 : n < 10
    · exact ⟨n, [], by simp [h10], h10, fun h => h⟩
    · obtain ⟨d, tail, heq, hd, hpos⟩ := ih (n / 10) (Nat.div_lt_self (by omega) (by omega))
      refine ⟨d, tail ++ [digitChar (n % 10)], ?_, hd, fun _ => hpos (by omega)⟩
      simp [h10, heq]


/-- The integer-part parser reads back the rendered digits. -/
theorem parseIntPart_natDigits (n : Nat) (rest : List Char)
    (hr : headNotDig rest = true) :
    parseIntPart (natDigits n ++ rest) = some (n, rest) := by
  by_cases h0 : n = 0
  · subst h0
    have h00 : natDigits 0 = ['0'] := rfl
    rw [h00]
    simp only [List.cons_append, List.nil_append, parseIntPart]
    rw [if_pos (by decide)]
    match rest, hr with
    | [], _ => rfl
    | c :: cs, hr =>
      simp only [headNotDig, Bool.not_eq_true'] at hr
      simp [hr]
  · obtain ⟨d, tail, heq, hd, hpos⟩ := natDigits_head n
    have hd1 : 1 ≤ d := hpos (by omega)
    have htail : ∀ c ∈ tail, isDig c = true := by
      intro c hc
      exact natDigits_all_dig n c (by rw [heq]; simp [hc])
    rw [heq]
    simp only [List.cons_append, parseIntPart, digitChar_toNat hd]
    rw [if_neg (by omega), if_pos (isDig_digitChar hd)]
    rw [digRun_append_digits tail htail rest hr]
    simp only [digitChar_toNat hd]
    have hdd : 48 + d - 48 = d := by omega
    rw [hdd]
    have hval : digitsVal tail d = n := by
      have h2 := digitsVal_natDigits n 0
      rw [heq] at h2
      simp only [digitsVal, digitChar_toNat hd] at h2
      rw [show 0 * 10 + (48 + d - 48) = d by omega] at h2
      simpa using h2
    simp [hval]

/-- The fraction parser is the identity when no dot follows. -/
theorem parseFrac_nodot (v : Nat) (s : List Char)
    (h : s = [] ∨ ∃ c cs, s = c :: cs ∧ c ≠ '.') :
    parseFrac v s = some (v, 0, s) := by
  match s, h with
  | [], _ => rfl
  | c :: cs, h =>
    have hc : c ≠ '.' := by
      rcases h with h | ⟨c', cs', heq, hne⟩
      · cases h
      · cases heq; exact hne
    simp [parseFrac, hc]

/-- The exponent parser is the identity on a delimiter head. -/
theorem parseExp_delim (s : List Char) (h : isDelim s = true) :
    parseExp s = some (0, s) := by
  match s with
  | [] => rfl
  | c :: cs =>
    simp only [isDelim, Bool.or_eq_true, decide_eq_true_eq] at h
    have he : ¬(c = 'e' ∨ c = 'E') := by
      rcases h with (h | h) | h <;> subst h <;> decide
    simp [parseExp, he]

/-- Delimiters do not start with a digit. -/
theorem headNotDig_of_delim (s : List Char) (h : isDelim s = true) :
    headNotDig s = true := by
  match s with
  | [] => rfl
  | c :: cs =>
    simp only [isDelim, Bool.or_eq_true, decide_eq_true_eq] at h
    simp only [headNotDig, Bool.not_eq_true']
    rcases h with (h | h) | h <;> subst h <;> decide

/-- Delimiters do not start with a dot. -/
theorem nodot_of_delim (s : List Char) (h : isDelim s = true) :
    s = [] ∨ ∃ c cs, s = c :: cs ∧ c ≠ '.' := by
  match s with
  | [] => exact Or.inl rfl
  | c :: cs =>
    refine Or.inr ⟨c, cs, rfl, ?_⟩
    simp only [isDelim, Bool.or_eq_true, decide_eq_true_eq] at h
    rcases h with (h | h) | h <;> subst h <;> decide

/-- The exponent parser reads back a rendered exponent after its marker. -/
theorem parseExp_intChars (e : Int) (rest : List Char)
    (hr : headNotDig rest = true) :
    parseExp ('e' :: (intChars e ++ rest)) = some (e, rest) := by
  by_cases hneg : e < 0
  · rw [intChars, if_pos hneg]
    rw [show ('e' :: (('-' :: natDigits e.natAbs) ++ rest))
      = 'e' :: '-' :: (natDigits e.natAbs ++ rest) by simp]
    rw [parseExp]
    rw [if_pos (Or.inl rfl)]
    simp only [if_true]
    rw [digRun_append_digits _ (natDigits_all_dig _) rest hr]
    simp only []
    have hlen : (natDigits e.natAbs).length ≠ 0 := fun hl =>
      natDigits_ne_nil e.natAbs (List.length_eq_zero.mp hl)
    rw [if_neg (by omega)]
    have hvd : digitsVal (natDigits e.natAbs) 0 = e.natAbs := by
      have h2 := digitsVal_natDigits e.natAbs 0
      simpa using h2
    rw [hvd]
    have hcoe : -((e.natAbs : Nat) : Int) = e := by omega
    rw [hcoe]
  · rw [intChars, if_neg hneg]
    obtain ⟨d, tail, heq, hd, _⟩ := natDigits_head e.toNat
    rw [heq]
    rw [show ('e' :: ((digitChar d :: tail) ++ rest))
      = 'e' :: digitChar d :: (tail ++ rest) by simp]
    rw [parseExp]
    rw [if_pos (Or.inl rfl)]
    simp only []
    rw [if_neg (char_ne_of_toNat_ne (by rw [digitChar_toNat hd]; simp; omega)),
      if_neg (char_ne_of_toNat_ne (by rw [digitChar_toNat hd]; simp; omega))]
    rw [show (digitChar d :: (tail ++ rest)) = natDigits e.toNat ++ rest by rw [heq]; simp]
    rw [digRun_append_digits _ (natDigits_all_dig _) rest hr]
    simp only []
    have hlen : (natDigits e.toNat).length ≠ 0 := fun hl =>
      natDigits_ne_nil e.toNat (List.length_eq_zero.mp hl)
    rw [if_neg (by omega)]
    have hvd : digitsVal (natDigits e.toNat) 0 = e.toNat := by
      have h2 := digitsVal_natDigits e.toNat 0
      simpa using h2
    rw [hvd]
    have hcoe : ((e.toNat : Nat) : Int) = e := by omega
    rw [hcoe]

/-- The number parser reads back every rendered number when a delimiter (or
the end of the input) follows. -/
theorem parseNum_numChars (m e : Int) (rest : List Char)
    (hrest : isDelim rest = true) :
    parseNum (numChars m e ++ rest) = some ((m, e), rest) := by
  have hndr : headNotDig rest = true := headNotDig_of_delim rest hrest
  have hexp : parseExp ((if e = 0 then ([] : List Char) else 'e' :: intChars e) ++ rest)
      = some (e, rest) := by
    by_cases he : e = 0
    · subst he
      simp only [if_pos rfl, List.nil_append]
      exact parseExp_delim rest hrest
    · rw [if_neg he, List.cons_append]
      exact parseExp_intChars e rest hndr
  have hmid : headNotDig ((if e = 0 then ([] : List Char) else 'e' :: intChars e) ++ rest)
      = true := by
    by_cases he : e = 0
    · simpa [he] using hndr
    · simp [he, headNotDig, isDig]
  have hnodot : ((if e = 0 then ([] : List Char) else 'e' :: intChars e) ++ rest) = []
      ∨ ∃ c cs, ((if e = 0 then ([] : List Char) else 'e' :: intChars e) ++ rest) = c :: cs ∧ c ≠ '.' := by
    by_cases he : e = 0
    · simp only [he, if_pos rfl, List.nil_append]
      exact nodot_of_delim rest hrest
    · rw [if_neg he, List.cons_append]
      exact Or.inr ⟨'e', _, rfl, by decide⟩
  have hsplit : numChars m e ++ rest
      = intChars m ++ ((if e = 0 then ([] : List Char) else 'e' :: intChars e) ++ rest) := by
    by_cases he : e = 0 <;> simp [numChars, he]
  rw [hsplit]
  by_cases hm : m < 0
  · rw [intChars, if_pos hm]
    rw [show ('-' :: natDigits m.natAbs) ++ ((if e = 0 then ([] : List Char) else 'e' :: intChars e) ++ rest)
      = '-' :: (natDigits m.natAbs ++ ((if e = 0 then ([] : List Char) else 'e' :: intChars e) ++ rest)) by simp]
    rw [parseNum]
    rw [if_pos rfl]
    rw [parseIntPart_natDigits m.natAbs _ hmid]
    simp only [Option.bind_eq_bind, Option.some_bind]
    rw [parseFrac_nodot _ _ hnodot]
    simp only [Option.some_bind]
    rw [hexp]
    simp only [Option.map_some']
    have hcoe : -((m.natAbs : Nat) : Int) = m := by omega
    rw [hcoe]
    simp
  · rw [intChars, if_neg hm]
    obtain ⟨d, tail, heq, hd, _⟩ := natDigits_head m.toNat
    rw [heq]
    rw [show (digitChar d :: tail) ++ ((if e = 0 then ([] : List Char) else 'e' :: intChars e) ++ rest)
      = digitChar d :: (tail ++ ((if e = 0 then ([] : List Char) else 'e' :: intChars e) ++ rest)) by simp]
    rw [parseNum]
    rw [if_neg (char_ne_of_toNat_ne (by rw [digitChar_toNat hd]; simp; omega))]
    rw [show digitChar d :: (tail ++ ((if e = 0 then ([] : List Char) else 'e' :: intChars e) ++ rest))
      = natDigits m.toNat ++ ((if e = 0 then ([] : List Char) else 'e' :: intChars e) ++ rest) by rw [heq]; simp]
    rw [parseIntPart_natDigits m.toNat _ hmid]
    simp only [Option.bind_eq_bind, Option.some_bind]
    rw [parseFrac_nodot _ _ hnodot]
    simp only [Option.some_bind]
    rw [hexp]
    simp only [Option.map_some']
    have hcoe : ((m.toNat : Nat) : Int) = m := by omega
    rw [hcoe]
    simp

/-- Hexadecimal digit characters read back their value. -/
theorem hexVal_hexChar {d : Nat} (h : d < 16) : hexVal (hexChar d) = some d := by
  by_cases h10 : d < 10
  · rw [hexChar, if_pos h10, hexVal]
    rw [toNat_ofNat_valid (isValidChar_of_lt (by omega))]
    rw [if_pos (by omega)]
    simp
  · rw [hexChar, if_neg h10, hexVal]
    rw [toNat_ofNat_valid (isValidChar_of_lt (by omega))]
    rw [if_neg (by omega), if_pos (by omega)]
    simp

/-- The string-body parser reads back an escaped string, consuming the
closing quote, for any fuel above the string length. -/
theorem parseStrAux_esc : ∀ (s : List Char) (fuel : Nat) (rest : List Char),
    s.length < fuel →
    parseStrAux fuel (escStr s ++ '"' :: rest) = some (s, rest) := by
  intro s
  induction s with
  | nil =>
    intro fuel rest h
    obtain ⟨f, rfl⟩ : ∃ f, fuel = f + 1 := ⟨fuel - 1, by omega⟩
    exact rfl
  | cons c cs ih =>
    intro fuel rest h
    obtain ⟨f, rfl⟩ : ∃ f, fuel = f + 1 := ⟨fuel - 1, by omega⟩
    have hcs : cs.length < f := by
      simp only [List.length_cons] at h
      omega
    have hih := ih f rest hcs
    by_cases h1 : c = '"'
    · subst h1
      show parseStrAux (f + 1) ('\\' :: '"' :: (escStr cs ++ '"' :: rest)) = _
    -- the two leading characters are literals, so one step of the parser
    -- computes away by definitional unfolding
      have hstep : parseStrAux (f + 1) ('\\' :: '"' :: (escStr cs ++ '"' :: rest))
          = (parseStrAux f (escStr cs ++ '"' :: rest)).map fun (s, r) => ('"' :: s, r) := rfl
      rw [hstep, hih]
      rfl
    · by_cases h2 : c = '\\'
      · subst h2
        show parseStrAux (f + 1) ('\\' :: '\\' :: (escStr cs ++ '"' :: rest)) = _
        have hstep : parseStrAux (f + 1) ('\\' :: '\\' :: (escStr cs ++ '"' :: rest))
            = (parseStrAux f (escStr cs ++ '"' :: rest)).map fun (s, r) => ('\\' :: s, r) := rfl
        rw [hstep, hih]
        rfl
      · by_cases h3 : c.toNat = 8
        · have hc : c = Char.ofNat 8 := by
            rw [show (8 : Nat) = c.toNat by omega, Char.ofNat_toNat]
          subst hc
          show parseStrAux (f + 1) ('\\' :: 'b' :: (escStr cs ++ '"' :: rest)) = _
          have hstep : parseStrAux (f + 1) ('\\' :: 'b' :: (escStr cs ++ '"' :: rest))
              = (parseStrAux f (escStr cs ++ '"' :: rest)).map
                  fun (s, r) => (Char.ofNat 8 :: s, r) := rfl
          rw [hstep, hih]
          rfl
        · by_cases h4 : c.toNat = 9
          · have hc : c = Char.ofNat 9 := by
              rw [show (9 : Nat) = c.toNat by omega, Char.ofNat_toNat]
            subst hc
            show parseStrAux (f + 1) ('\\' :: 't' :: (escStr cs ++ '"' :: rest)) = _
            have hstep : parseStrAux (f + 1) ('\\' :: 't' :: (escStr cs ++ '"' :: rest))
                = (parseStrAux f (escStr cs ++ '"' :: rest)).map
                    fun (s, r) => (Char.ofNat 9 :: s, r) := rfl
            rw [hstep, hih]
            rfl
          · by_cases h5 : c.toNat = 10
            · have hc : c = Char.ofNat 10 := by
                rw [show (10 : Nat) = c.toNat by omega, Char.ofNat_toNat]
              subst hc
              show parseStrAux (f + 1) ('\\' :: 'n' :: (escStr cs ++ '"' :: rest)) = _
              have hstep : parseStrAux (f + 1) ('\\' :: 'n' :: (escStr cs ++ '"' :: rest))
                  = (parseStrAux f (escStr cs ++ '"' :: rest)).map
                      fun (s, r) => (Char.ofNat 10 :: s, r) := rfl
              rw [hstep, hih]
              rfl
            · by_cases h6 : c.toNat = 12
              · have hc : c = Char.ofNat 12 := by
                  rw [show (12 : Nat) = c.toNat by omega, Char.ofNat_toNat]
                subst hc
                show parseStrAux (f + 1) ('\\' :: 'f' :: (escStr cs ++ '"' :: rest)) = _
                have hstep : parseStrAux (f + 1) ('\\' :: 'f' :: (escStr cs ++ '"' :: rest))
                    = (parseStrAux f (escStr cs ++ '"' :: rest)).map
                        fun (s, r) => (Char.ofNat 12 :: s, r) := rfl
                rw [hstep, hih]
                rfl
              · by_cases h7 : c.toNat = 13
                · have hc : c = Char.ofNat 13 := by
                    rw [show (13 : Nat) = c.toNat by omega, Char.ofNat_toNat]
                  subst hc
                  show parseStrAux (f + 1) ('\\' :: 'r' :: (escStr cs ++ '"' :: rest)) = _
                  have hstep : parseStrAux (f + 1) ('\\' :: 'r' :: (escStr cs ++ '"' :: rest))
                      = (parseStrAux f (escStr cs ++ '"' :: rest)).map
                          fun (s, r) => (Char.ofNat 13 :: s, r) := rfl
                  rw [hstep, hih]
                  rfl
                · by_cases h8 : c.toNat < 32
                  · have hesc : escChar c = ['\\', 'u', '0', '0',
                        hexChar (c.toNat / 16), hexChar (c.toNat % 16)] := by
                      rw [escChar, if_neg h1, if_neg h2, if_neg h3, if_neg h4, if_neg h5,
                        if_neg h6, if_neg h7, if_pos h8]
                    rw [show escStr (c :: cs) = escChar c ++ escStr cs from rfl, hesc]
                    simp only [List.cons_append, List.nil_append]
                    have hstep : ∀ tail : List Char,
                        parseStrAux (f + 1) ('\\' :: tail)
                        = match parseEscTok tail with
                          | none => none
                          | some (out, rest) =>
                            (parseStrAux f rest).map fun (s, r) => (out ++ s, r) :=
                      fun _ => rfl
                    rw [hstep]
                    have htok : ∀ tail : List Char,
                        parseEscTok ('u' :: '0' :: '0' :: hexChar (c.toNat / 16)
                          :: hexChar (c.toNat % 16) :: tail) = some ([c], tail) := by
                      intro tail
                      rw [parseEscTok]
                      rw [if_neg (by decide), if_neg (by decide), if_neg (by decide),
                        if_neg (by decide), if_neg (by decide), if_neg (by decide),
                        if_neg (by decide), if_neg (by decide), if_pos rfl]
                      rw [show hexVal '0' = some 0 from rfl]
                      rw [hexVal_hexChar (show c.toNat / 16 < 16 by omega),
                        hexVal_hexChar (show c.toNat % 16 < 16 by omega)]
                      simp only []
                      rw [if_neg (by omega), if_neg (by omega)]
                      rw [show 0 * 4096 + 0 * 256 + c.toNat / 16 * 16 + c.toNat % 16
                        = c.toNat by omega]
                      rw [Char.ofNat_toNat]
                    rw [htok]
                    simp only []
                    rw [hih]
                    rfl
                  · have hesc : escChar c = [c] := by
                      rw [escChar, if_neg h1, if_neg h2, if_neg h3, if_neg h4, if_neg h5,
                        if_neg h6, if_neg h7, if_neg h8]
                    rw [show escStr (c :: cs) = escChar c ++ escStr cs from rfl, hesc]
                    rw [List.cons_append, List.nil_append, List.cons_append]
                    rw [parseStrAux]
                    rw [if_neg h1, if_neg h2, if_neg (by omega : ¬c.toNat < 32)]
                    rw [hih]
                    rfl

/-- Whitespace skipping leaves a non-whitespace head alone. -/
theorem skipWs_notws (c : Char) (cs : List Char)
    (h : ¬(c = ' ' ∨ c.toNat = 9 ∨ c.toNat = 10 ∨ c.toNat = 13)) :
    skipWs (c :: cs) = c :: cs := by
  rw [skipWs, if_neg h]

/-- The rendered form of a number starts with a minus sign or a digit. -/
theorem numChars_head (m e : Int) :
    ∃ c cs', numChars m e = c :: cs' ∧ (c = '-' ∨ ∃ d, d < 10 ∧ c = digitChar d) := by
  have hint : ∃ c cs', intChars m = c :: cs' ∧ (c = '-' ∨ ∃ d, d < 10 ∧ c = digitChar d) := by
    rw [intChars]
    by_cases hm : m < 0
    · exact ⟨'-', _, by rw [if_pos hm], Or.inl rfl⟩
    · obtain ⟨d, tail, heq, hd, _⟩ := natDigits_head m.toNat
      exact ⟨digitChar d, tail, by rw [if_neg hm, heq], Or.inr ⟨d, hd, rfl⟩⟩
  obtain ⟨c, cs', heq, hc⟩ := hint
  rw [numChars]
  by_cases he : e = 0
  · exact ⟨c, cs', by rw [if_pos he, heq], hc⟩
  · exact ⟨c, _, by rw [if_neg he, heq, List.cons_append], hc⟩

/-- Every serialized value starts with a character that is not whitespace
and not a closing delimiter. -/
theorem stringify_head (j : Json) :
    ∃ c cs', stringifyJ j = c :: cs'
      ∧ ¬(c = ' ' ∨ c.toNat = 9 ∨ c.toNat = 10 ∨ c.toNat = 13)
      ∧ c ≠ ']' ∧ c ≠ '}' := by
  match j with
  | .null => exact ⟨'n', _, rfl, by decide, by decide, by decide⟩
  | .bool true => exact ⟨'t', _, rfl, by decide, by decide, by decide⟩
  | .bool false => exact ⟨'f', _, rfl, by decide, by decide, by decide⟩
  | .str s => exact ⟨'"', _, rfl, by decide, by decide, by decide⟩
  | .arr xs => exact ⟨'[', _, rfl, by decide, by decide, by decide⟩
  | .obj fs => exact ⟨'{', _, rfl, by decide, by decide, by decide⟩
  | .num m e =>
    obtain ⟨c, cs', heq, hc⟩ := numChars_head m e
    refine ⟨c, cs', heq, ?_, ?_, ?_⟩
    · rcases hc with rfl | ⟨d, hd, rfl⟩
      · decide
      · rw [show ∀ p : Prop, (¬p) = (p → False) from fun p => rfl]
        intro hws
        rcases hws with h | h | h | h
        · exact absurd (congrArg Char.toNat h) (by rw [digitChar_toNat hd]; simp; omega)
        all_goals rw [digitChar_toNat hd] at h; omega
    · rcases hc with rfl | ⟨d, hd, rfl⟩
      · decide
      · exact char_ne_of_toNat_ne (by rw [digitChar_toNat hd]; simp; omega)
    · rcases hc with rfl | ⟨d, hd, rfl⟩
      · decide
      · exact char_ne_of_toNat_ne (by rw [digitChar_toNat hd]; simp; omega)

/-- Key membership after a JavaScript assignment. -/
theorem keyMem_insertObj : ∀ (acc : JsonO) (x key : List Char) (v : Json),
    keyMem x (insertObj acc key v) = (keyMem x acc || decide (key = x))
  | .nil, x, key, v => by simp [insertObj, keyMem]
  | .cons k w tl, x, key, v => by
    rw [insertObj]
    by_cases hk : k = key
    · subst hk
      simp [keyMem]
      by_cases hx : k = x
      · simp [hx]
      · simp [hx]
    · rw [if_neg hk]
      simp [keyMem, keyMem_insertObj tl x key v]
      by_cases hx : k = x <;> simp [hx, Bool.or_assoc]

/-- Assignment of a fresh key appends it. -/
theorem insertObj_notmem : ∀ (acc : JsonO) (key : List Char) (v : Json),
    keyMem key acc = false →
    insertObj acc key v = appendO acc (.cons key v .nil)
  | .nil, key, v, _ => rfl
  | .cons k w tl, key, v, h => by
    rw [keyMem] at h
    simp only [Bool.or_eq_false_iff, decide_eq_false_iff_not] at h
    rw [insertObj, if_neg h.1, appendO, insertObj_notmem tl key v h.2]

/-- Appending the empty field list changes nothing. -/
theorem appendO_nil : ∀ (a : JsonO), appendO a .nil = a
  | .nil => rfl
  | .cons k v tl => by rw [appendO, appendO_nil tl]

/-- Concatenation of field lists is associative. -/
theorem appendO_assoc : ∀ (a b c : JsonO),
    appendO (appendO a b) c = appendO a (appendO b c)
  | .nil, _, _ => rfl
  | .cons k v tl, b, c => by rw [appendO, appendO, appendO, appendO_assoc tl b c]

/-- Replaying distinct-key members onto an accumulator with disjoint keys
just concatenates them. -/
theorem objAssign_disjoint : ∀ (fs : JsonO) (acc : JsonO), keysOk fs = true →
    (∀ k, keyMem k fs = true → keyMem k acc = false) →
    objAssign acc fs = appendO acc fs
  | .nil, acc, _, _ => by rw [objAssign, appendO_nil]
  | .cons k v tl, acc, hok, hdis => by
    rw [keysOk] at hok
    simp only [Bool.and_eq_true, Bool.not_eq_true'] at hok
    have hkacc : keyMem k acc = false := hdis k (by rw [keyMem]; simp)
    rw [objAssign, objAssign_disjoint tl (insertObj acc k v) hok.2 ?hd]
    case hd =>
      intro x hx
      rw [keyMem_insertObj]
      simp only [Bool.or_eq_false_iff, decide_eq_false_iff_not]
      constructor
      · exact hdis x (by rw [keyMem, hx]; simp)
      · intro hkx
        subst hkx
        rw [hok.1] at hx
        cases hx
    rw [insertObj_notmem acc k v hkacc, appendO_assoc]
    rfl

/-- Replaying the members of a well-formed object reproduces it. -/
theorem objAssign_keysOk (fs : JsonO) (h : keysOk fs = true) :
    objAssign .nil fs = fs := by
  rw [objAssign_disjoint fs .nil h (fun k _ => rfl)]
  rfl

/-- Escaping never shortens a string. -/
theorem escStr_length (s : List Char) : s.length ≤ (escStr s).length := by
  induction s with
  | nil => simp [escStr]
  | cons c cs ih =>
    simp only [escStr, List.length_append, List.length_cons]
    have h1 : 1 ≤ (escChar c).length := by
      rw [escChar]
      repeat' split
      all_goals simp
    omega

/-- The string-body parser at its standard fuel reads back an escaped
string. -/
theorem parseStrBody_esc (s : List Char) (rest : List Char) :
    parseStrBody (escStr s ++ '"' :: rest) = some (s, rest) := by
  rw [parseStrBody]
  apply parseStrAux_esc
  have := escStr_length s
  simp only [List.length_append, List.length_cons]
  omega

/-- One step of the value parser on a number head: with a minus sign or a
digit in front, the parser commits to the number branch. -/
theorem parseVal_numHead (f : Nat) (c : Char) (X : List Char)
    (h : c = '-' ∨ ∃ d, d < 10 ∧ c = digitChar d) :
    parseVal (f + 1) (c :: X)
      = (parseNum (c :: X)).map fun (n, r) => (.num n.1 n.2, r) := by
  rcases h with rfl | ⟨d, hd, rfl⟩
  · rfl
  · interval_cases d <;> rfl

/-- Whitespace skipping leaves a serialized value alone. -/
theorem skipWs_stringify (j : Json) (t : List Char) :
    skipWs (stringifyJ j ++ t) = stringifyJ j ++ t := by
  obtain ⟨c, cs', heq, hws, _, _⟩ := stringify_head j
  rw [heq, List.cons_append, skipWs_notws c _ hws]

mutual
/-- The value parser reads back every serialized well-formed value when a
delimiter (or the end of the input) follows, at any fuel above the value's
size. -/
theorem parseVal_stringify : ∀ (j : Json) (fuel : Nat) (rest : List Char),
    wfJ j = true → szJ j < fuel → isDelim rest = true →
    parseVal fuel (stringifyJ j ++ rest) = some (j, rest)
  | .null, fuel, rest, _, hsz, _ => by
    obtain ⟨f, rfl⟩ : ∃ f, fuel = f + 1 := ⟨fuel - 1, by omega⟩
    exact rfl
  | .bool true, fuel, rest, _, hsz, _ => by
    obtain ⟨f, rfl⟩ : ∃ f, fuel = f + 1 := ⟨fuel - 1, by omega⟩
    exact rfl
  | .bool false, fuel, rest, _, hsz, _ => by
    obtain ⟨f, rfl⟩ : ∃ f, fuel = f + 1 := ⟨fuel - 1, by omega⟩
    exact rfl
  | .num m e, fuel, rest, _, hsz, hrest => by
    obtain ⟨f, rfl⟩ : ∃ f, fuel = f + 1 := ⟨fuel - 1, by omega⟩
    obtain ⟨c, cs', heq, hc⟩ := numChars_head m e
    rw [show stringifyJ (.num m e) = numChars m e from rfl, heq, List.cons_append]
    rw [parseVal_numHead f c _ hc]
    rw [show c :: (cs' ++ rest) = (c :: cs') ++ rest by simp, ← heq]
    rw [parseNum_numChars m e rest hrest]
    rfl
  | .str s, fuel, rest, _, hsz, _ => by
    obtain ⟨f, rfl⟩ : ∃ f, fuel = f + 1 := ⟨fuel - 1, by omega⟩
    rw [show stringifyJ (.str s) ++ rest = '"' :: (escStr s ++ '"' :: rest) by
      simp [stringifyJ, strLit]]
    have hstep : parseVal (f + 1) ('"' :: (escStr s ++ '"' :: rest))
        = (parseStrBody (escStr s ++ '"' :: rest)).map fun (s', r) => (.str s', r) := rfl
    rw [hstep, parseStrBody_esc]
    rfl
  | .arr .nil, fuel, rest, _, hsz, _ => by
    obtain ⟨f, rfl⟩ : ∃ f, fuel = f + 1 := ⟨fuel - 1, by omega⟩
    exact rfl
  | .arr (.cons y tl), fuel, rest, hwf, hsz, hrest => by
    obtain ⟨f, rfl⟩ : ∃ f, fuel = f + 1 := ⟨fuel - 1, by omega⟩
    rw [show stringifyJ (.arr (.cons y tl)) ++ rest
      = '[' :: (stringifyL (.cons y tl) ++ ']' :: rest) by simp [stringifyJ]]
    have hstep : ∀ X : List Char, parseVal (f + 1) ('[' :: X)
        = (match skipWs X with
          | [] => (parseElems f []).map fun (xs, r) => (Json.arr xs, r)
          | c' :: cs' =>
            if c' = ']' then some (.arr .nil, cs')
            else (parseElems f (c' :: cs')).map fun (xs, r) => (Json.arr xs, r)) :=
      fun _ => rfl
    rw [hstep]
    obtain ⟨c, cs', heq, hws, hbr, _⟩ := stringify_head y
    have hY : ∃ Y, stringifyL (.cons y tl) ++ ']' :: rest = c :: (cs' ++ Y)
        ∧ stringifyJ y ++ Y = stringifyL (.cons y tl) ++ ']' :: rest := by
      match tl with
      | .nil =>
        refine ⟨']' :: rest, by rw [stringifyL, heq]; simp, by rw [stringifyL]⟩
      | .cons z tl2 =>
        refine ⟨',' :: (stringifyL (.cons z tl2) ++ ']' :: rest),
          by rw [stringifyL, heq]; simp, by rw [stringifyL]; simp⟩
    obtain ⟨Y, hY1, hY2⟩ := hY
    rw [hY1, skipWs_notws c _ hws]
    simp only []
    rw [if_neg hbr]
    rw [show c :: (cs' ++ Y) = (c :: cs') ++ Y from rfl, ← heq, hY2]
    rw [parseElems_stringify (.cons y tl) f rest (by intro h; cases h)
      (by simpa [wfJ] using hwf) (by simp only [szJ, szL] at hsz ⊢; omega)]
    rfl
  | .obj .nil, fuel, rest, _, hsz, _ => by
    obtain ⟨f, rfl⟩ : ∃ f, fuel = f + 1 := ⟨fuel - 1, by omega⟩
    exact rfl
  | .obj (.cons k v tl), fuel, rest, hwf, hsz, hrest => by
    obtain ⟨f, rfl⟩ : ∃ f, fuel = f + 1 := ⟨fuel - 1, by omega⟩
    have hwf' : keysOk (.cons k v tl) = true ∧ wfO (.cons k v tl) = true := by
      rw [wfJ] at hwf
      simpa using hwf
    rw [show stringifyJ (.obj (.cons k v tl)) ++ rest
      = '{' :: (stringifyO (.cons k v tl) ++ '}' :: rest) by simp [stringifyJ]]
    have hstep : ∀ X : List Char, parseVal (f + 1) ('{' :: X)
        = (match skipWs X with
          | [] => (parseMembers f []).map fun (fs, r) => (Json.obj (objAssign .nil fs), r)
          | c' :: cs' =>
            if c' = '}' then some (.obj .nil, cs')
            else (parseMembers f (c' :: cs')).map fun (fs, r) =>
              (Json.obj (objAssign .nil fs), r)) :=
      fun _ => rfl
    rw [hstep]
    have hshape : ∃ Y, stringifyO (.cons k v tl) ++ '}' :: rest = '"' :: Y := by
      match tl with
      | .nil => exact ⟨escStr k ++ '"' :: ':' :: (stringifyJ v ++ '}' :: rest), by
          rw [stringifyO, strLit]; simp⟩
      | .cons k2 v2 tl2 =>
        refine ⟨escStr k ++ '"' :: ':' :: (stringifyJ v
          ++ ',' :: (stringifyO (.cons k2 v2 tl2) ++ '}' :: rest)), ?_⟩
        rw [stringifyO, strLit]
        simp
    obtain ⟨Y, hY⟩ := hshape
    rw [hY, skipWs_notws '"' _ (by decide)]
    simp only []
    rw [if_neg (by decide)]
    rw [← hY]
    rw [parseMembers_stringify (.cons k v tl) f rest (by intro h; cases h)
      (hwf'.2) (by simp only [szJ, szO] at hsz ⊢; omega)]
    simp only [Option.map_some']
    rw [objAssign_keysOk _ hwf'.1]

/-- The element-list parser reads back serialized nonempty element lists
followed by the closing bracket. -/
theorem parseElems_stringify : ∀ (xs : JsonL) (fuel : Nat) (rest : List Char),
    xs ≠ .nil → wfL xs = true → szL xs < fuel →
    parseElems fuel (stringifyL xs ++ ']' :: rest) = some (xs, rest)
  | .nil, _, _, hne, _, _ => absurd rfl hne
  | .cons x tl, fuel, rest, _, hwf, hsz => by
    obtain ⟨f, rfl⟩ : ∃ f, fuel = f + 1 := ⟨fuel - 1, by omega⟩
    have hwf' : wfJ x = true ∧ wfL tl = true := by
      rw [wfL] at hwf
      simpa using hwf
    have hstep : ∀ X : List Char, parseElems (f + 1) X
        = (parseVal f X).bind fun (v, r) =>
          (match skipWs r with
          | [] => none
          | c :: r' =>
            if c = ']' then some (JsonL.cons v .nil, r')
            else if c = ',' then
              (parseElems f r').map fun (tl, r'') => (JsonL.cons v tl, r'')
            else none) :=
      fun _ => rfl
    rw [hstep]
    match tl with
    | .nil =>
      rw [show stringifyL (.cons x .nil) ++ ']' :: rest = stringifyJ x ++ ']' :: rest by
        rw [stringifyL]]
      rw [parseVal_stringify x f (']' :: rest) hwf'.1
        (by simp only [szL] at hsz; omega) (by rfl)]
      rfl
    | .cons z tl2 =>
      rw [show stringifyL (.cons x (.cons z tl2)) ++ ']' :: rest
        = stringifyJ x ++ ',' :: (stringifyL (.cons z tl2) ++ ']' :: rest) by
          rw [stringifyL]; simp]
      rw [parseVal_stringify x f _ hwf'.1
        (by simp only [szL] at hsz; omega) (by rfl)]
      simp only [Option.some_bind]
      rw [skipWs_notws ',' _ (by decide)]
      simp only [if_true]
      rw [parseElems_stringify (.cons z tl2) f rest (by intro h; cases h)
        (hwf'.2) (by simp only [szL] at hsz ⊢; omega)]
      rfl

/-- The member-list parser reads back serialized nonempty member lists
followed by the closing brace. -/
theorem parseMembers_stringify : ∀ (fs : JsonO) (fuel : Nat) (rest : List Char),
    fs ≠ .nil → wfO fs = true → szO fs < fuel →
    parseMembers fuel (stringifyO fs ++ '}' :: rest) = some (fs, rest)
  | .nil, _, _, hne, _, _ => absurd rfl hne
  | .cons k v tl, fuel, rest, _, hwf, hsz => by
    obtain ⟨f, rfl⟩ : ∃ f, fuel = f + 1 := ⟨fuel - 1, by omega⟩
    have hwf' : wfJ v = true ∧ wfO tl = true := by
      rw [wfO] at hwf
      simpa using hwf
    have hstep : ∀ X : List Char, parseMembers (f + 1) X
        = (match skipWs X with
          | [] => none
          | c0 :: ks =>
            if c0 = '"' then
              (parseStrBody ks).bind fun (k, r) =>
                (match skipWs r with
                | [] => none
                | c1 :: r' =>
                  if c1 = ':' then
                    (parseVal f r').bind fun (v, r'') =>
                      (match skipWs r'' with
                      | [] => none
                      | c2 :: r3 =>
                        if c2 = '}' then some (JsonO.cons k v .nil, r3)
                        else if c2 = ',' then
                          (parseMembers f r3).map fun (tl, r4) => (JsonO.cons k v tl, r4)
                        else none)
                  else none)
            else none) :=
      fun _ => rfl
    rw [hstep]
    match tl with
    | .nil =>
      rw [show stringifyO (.cons k v .nil) ++ '}' :: rest
        = '"' :: (escStr k ++ '"' :: (':' :: (stringifyJ v ++ '}' :: rest))) by
          rw [stringifyO, strLit]; simp]
      rw [skipWs_notws '"' _ (by decide)]
      simp only [if_true]
      rw [parseStrBody_esc]
      simp only [Option.some_bind]
      rw [skipWs_notws ':' _ (by decide)]
      simp only [if_true]
      rw [parseVal_stringify v f ('}' :: rest) hwf'.1
        (by simp only [szO] at hsz; omega) (by rfl)]
      rfl
    | .cons k2 v2 tl2 =>
      rw [show stringifyO (.cons k v (.cons k2 v2 tl2)) ++ '}' :: rest
        = '"' :: (escStr k ++ '"' :: (':' :: (stringifyJ v
          ++ ',' :: (stringifyO (.cons k2 v2 tl2) ++ '}' :: rest)))) by
          rw [stringifyO, strLit]; simp]
      rw [skipWs_notws '"' _ (by decide)]
      simp only [if_true]
      rw [parseStrBody_esc]
      simp only [Option.some_bind]
      rw [skipWs_notws ':' _ (by decide)]
      simp only [if_true]
      rw [parseVal_stringify v f _ hwf'.1
        (by simp only [szO] at hsz; omega) (by rfl)]
      simp only [Option.some_bind]
      rw [skipWs_notws ',' _ (by decide)]
      simp only [if_true]
      rw [parseMembers_stringify (.cons k2 v2 tl2) f rest (by intro h; cases h)
        (hwf'.2) (by simp only [szO] at hsz ⊢; omega)]
      rfl
end

/-- One escape contributes at least one character. -/
theorem escChar_len_pos (c : Char) : 1 ≤ (escChar c).length := by
  rw [escChar]
  repeat' split
  all_goals simp

mutual
/-- The parser-entry measure of a value never exceeds the length of its
serialization: one unit of fuel per consumed character suffices. -/
theorem szJ_le_len : ∀ j : Json, szJ j ≤ (stringifyJ j).length
  | .null => by simp [szJ, stringifyJ]
  | .bool true => by simp [szJ, stringifyJ]
  | .bool false => by simp [szJ, stringifyJ]
  | .num m e => by
    obtain ⟨c, cs', heq, _⟩ := numChars_head m e
    rw [szJ, show stringifyJ (.num m e) = numChars m e from rfl, heq]
    simp
  | .str s => by simp [szJ, stringifyJ, strLit]
  | .arr xs => by
    have h := szL_le_len xs
    simp only [szJ, stringifyJ, List.length_cons, List.length_append,
      List.length_singleton] at *
    omega
  | .obj fs => by
    have h := szO_le_len fs
    simp only [szJ, stringifyJ, List.length_cons, List.length_append,
      List.length_singleton] at *
    omega

/-- Element lists cost at most one more unit of fuel than their rendered
length. -/
theorem szL_le_len : ∀ xs : JsonL, szL xs ≤ (stringifyL xs).length + 1
  | .nil => by simp [szL, stringifyL]
  | .cons x .nil => by
    have h := szJ_le_len x
    rw [show stringifyL (.cons x .nil) = stringifyJ x from rfl]
    simp only [szL]
    omega
  | .cons x (.cons y tl) => by
    have h1 := szJ_le_len x
    have h2 := szL_le_len (.cons y tl)
    rw [show stringifyL (.cons x (.cons y tl))
      = stringifyJ x ++ ',' :: stringifyL (.cons y tl) from rfl]
    simp only [szL, List.length_append, List.length_cons] at *
    omega

/-- Member lists cost at most one more unit of fuel than their rendered
length. -/
theorem szO_le_len : ∀ fs : JsonO, szO fs ≤ (stringifyO fs).length + 1
  | .nil => by simp [szO, stringifyO]
  | .cons k v .nil => by
    have h := szJ_le_len v
    rw [show stringifyO (.cons k v .nil) = strLit k ++ ':' :: stringifyJ v from rfl]
    simp only [szO, strLit, List.length_append, List.length_cons]
    omega
  | .cons k v (.cons k2 v2 tl) => by
    have h1 := szJ_le_len v
    have h2 := szO_le_len (.cons k2 v2 tl)
    rw [show stringifyO (.cons k v (.cons k2 v2 tl))
      = strLit k ++ ':' :: stringifyJ v ++ ',' :: stringifyO (.cons k2 v2 tl) from rfl]
    simp only [szO, strLit, List.length_append, List.length_cons] at *
    omega
end

/-- Round trip of the full `JSON.parse` model over the full `JSON.stringify`
model, for well-formed values. -/
theorem parseJson_stringify (j : Json) (hwf : wfJ j = true) :
    parseJson (stringifyJ j) = some j := by
  rw [parseJson]
  have h := parseVal_stringify j ((stringifyJ j).length + 1) []
    hwf (by have := szJ_le_len j; omega) rfl
  rw [show stringifyJ j ++ [] = stringifyJ j by simp] at h
  rw [h]
  rfl

/-- The validity bound of a character's scalar value, in arithmetic form. -/
theorem char_valid_bounds (c : Char) :
    c.toNat < 0xD800 ∨ (0xDFFF < c.toNat ∧ c.toNat < 0x110000) :=
  c.valid

/-- Decoding after encoding one character peels it off, whatever follows. -/
theorem utf8DecodeAux_encodeChar (c : Char) (f : Nat) (bs : List Nat) :
    utf8DecodeAux (f + 1) (utf8EncodeChar c ++ bs) = c :: utf8DecodeAux f bs := by
  have hv := char_valid_bounds c
  rw [utf8EncodeChar]
  by_cases h1 : c.toNat < 0x80
  · rw [if_pos h1]
    simp only [List.cons_append, List.nil_append]
    rw [utf8DecodeAux.eq_def, show (f + 1 : Nat) = Nat.succ f from rfl]
    simp only []
    rw [if_pos h1, Char.ofNat_toNat]
  · rw [if_neg h1]
    by_cases h2 : c.toNat < 0x800
    · rw [if_pos h2]
      simp only [List.cons_append, List.nil_append]
      rw [utf8DecodeAux.eq_def, show (f + 1 : Nat) = Nat.succ f from rfl]
      simp only []
      rw [if_neg (by omega), if_neg (by omega), if_pos (by omega)]
      rw [if_pos (by simp only [isCont, Bool.and_eq_true, decide_eq_true_eq]; omega)]
      rw [show (192 + c.toNat / 64 - 192) * 64 + (128 + c.toNat % 64 - 128)
        = c.toNat by omega]
      rw [Char.ofNat_toNat]
    · rw [if_neg h2]
      by_cases h3 : c.toNat < 0x10000
      · rw [if_pos h3]
        simp only [List.cons_append, List.nil_append]
        rw [utf8DecodeAux.eq_def, show (f + 1 : Nat) = Nat.succ f from rfl]
        simp only []
        rw [if_neg (by omega), if_neg (by omega), if_neg (by omega), if_pos (by omega)]
        rw [if_pos (by
          simp only [isCont, Bool.and_eq_true, Bool.not_eq_true', Bool.and_eq_false_iff,
            decide_eq_true_eq, decide_eq_false_iff_not]
          omega)]
        rw [show (224 + c.toNat / 4096 - 224) * 4096 + (128 + c.toNat / 64 % 64 - 128) * 64
          + (128 + c.toNat % 64 - 128) = c.toNat by omega]
        rw [Char.ofNat_toNat]
      · rw [if_neg h3]
        simp only [List.cons_append, List.nil_append]
        rw [utf8DecodeAux.eq_def, show (f + 1 : Nat) = Nat.succ f from rfl]
        simp only []
        rw [if_neg (by omega), if_neg (by omega), if_neg (by omega), if_neg (by omega),
          if_pos (by omega)]
        rw [if_pos (by
          simp only [isCont, Bool.and_eq_true, Bool.not_eq_true', Bool.and_eq_false_iff,
            decide_eq_true_eq, decide_eq_false_iff_not]
          omega)]
        rw [show (240 + c.toNat / 262144 - 240) * 262144
          + (128 + c.toNat / 4096 % 64 - 128) * 4096
          + (128 + c.toNat / 64 % 64 - 128) * 64 + (128 + c.toNat % 64 - 128)
          = c.toNat by omega]
        rw [Char.ofNat_toNat]

/-- Decoding reads back an encoded string at any sufficient fuel. -/
theorem utf8DecodeAux_encode : ∀ (l : List Char) (fuel : Nat), l.length < fuel →
    utf8DecodeAux fuel (utf8Encode l) = l := by
  intro l
  induction l with
  | nil =>
    intro fuel h
    obtain ⟨f, rfl⟩ : ∃ f, fuel = f + 1 := ⟨fuel - 1, by omega⟩
    rfl
  | cons c cs ih =>
    intro fuel h
    obtain ⟨f, rfl⟩ : ∃ f, fuel = f + 1 := ⟨fuel - 1, by omega⟩
    rw [utf8Encode, utf8DecodeAux_encodeChar, ih f (by simp at h; omega)]

/-- Encoding never shortens a string. -/
theorem utf8Encode_length (l : List Char) : l.length ≤ (utf8Encode l).length := by
  induction l with
  | nil => simp [utf8Encode]
  | cons c cs ih =>
    rw [utf8Encode]
    have h1 : 1 ≤ (utf8EncodeChar c).length := by
      rw [utf8EncodeChar]
      repeat' split
      all_goals simp
    simp only [List.length_append, List.length_cons]
    omega

/-- UTF-8 round trip: decoding an encoded string restores it. -/
theorem utf8Decode_encode (l : List Char) : utf8Decode (utf8Encode l) = l := by
  rw [utf8Decode]
  exact utf8DecodeAux_encode l _ (by have := utf8Encode_length l; omega)

/-- Digit characters sit above the control range. -/
theorem isDig_ge32 {c : Char} (h : isDig c = true) : 32 ≤ c.toNat := by
  simp only [isDig, Bool.and_eq_true, decide_eq_true_eq] at h
  omega

/-- Hexadecimal digit characters sit above the control range. -/
theorem hexChar_ge32 (d : Nat) (hd : d < 16) : 32 ≤ (hexChar d).toNat := by
  rw [hexChar]
  by_cases h10 : d < 10
  · rw [if_pos h10, toNat_ofNat_valid (isValidChar_of_lt (by omega))]
    omega
  · rw [if_neg h10, toNat_ofNat_valid (isValidChar_of_lt (by omega))]
    omega

/-- Integer renderings contain no control characters. -/
theorem intChars_ge32 (i : Int) : ∀ c ∈ intChars i, 32 ≤ c.toNat := by
  rw [intChars]
  by_cases hneg : i < 0
  · rw [if_pos hneg]
    intro c hc
    rcases List.mem_cons.mp hc with rfl | hc
    · decide
    · exact isDig_ge32 (natDigits_all_dig _ c hc)
  · rw [if_neg hneg]
    intro c hc
    exact isDig_ge32 (natDigits_all_dig _ c hc)

/-- Number renderings contain no control characters. -/
theorem numChars_ge32 (m e : Int) : ∀ c ∈ numChars m e, 32 ≤ c.toNat := by
  rw [numChars]
  by_cases he : e = 0
  · rw [if_pos he]
    exact intChars_ge32 m
  · rw [if_neg he]
    intro c hc
    rcases List.mem_append.mp hc with hc | hc
    · exact intChars_ge32 m c hc
    · rcases List.mem_cons.mp hc with rfl | hc
      · decide
      · exact intChars_ge32 e c hc

/-- Escapes contain no control characters. -/
theorem escChar_ge32 (c : Char) : ∀ x ∈ escChar c, 32 ≤ x.toNat := by
  rw [escChar]
  repeat' split
  · intro x hx
    rcases List.mem_cons.mp hx with rfl | hx
    · decide
    · simp at hx
      subst hx
      decide
  · intro x hx
    rcases List.mem_cons.mp hx with rfl | hx
    · decide
    · simp at hx
      subst hx
      decide
  · intro x hx
    rcases List.mem_cons.mp hx with rfl | hx
    · decide
    · simp at hx
      subst hx
      decide
  · intro x hx
    rcases List.mem_cons.mp hx with rfl | hx
    · decide
    · simp at hx
      subst hx
      decide
  · intro x hx
    rcases List.mem_cons.mp hx with rfl | hx
    · decide
    · simp at hx
      subst hx
      decide
  · intro x hx
    rcases List.mem_cons.mp hx with rfl | hx
    · decide
    · simp at hx
      subst hx
      decide
  · intro x hx
    rcases List.mem_cons.mp hx with rfl | hx
    · decide
    · simp at hx
      subst hx
      decide
  · rename_i h8
    intro x hx
    simp only [List.mem_cons] at hx
    rcases hx with rfl | rfl | rfl | rfl | rfl | hx
    · decide
    · decide
    · decide
    · decide
    · exact hexChar_ge32 _ (by omega)
    · simp at hx
      subst hx
      exact hexChar_ge32 _ (by omega)
  · intro x hx
    simp at hx
    subst hx
    omega

/-- Escaped string bodies contain no control characters. -/
theorem escStr_ge32 (s : List Char) : ∀ x ∈ escStr s, 32 ≤ x.toNat := by
  induction s with
  | nil => simp [escStr]
  | cons c cs ih =>
    intro x hx
    rw [escStr] at hx
    rcases List.mem_append.mp hx with hx | hx
    · exact escChar_ge32 c x hx
    · exact ih x hx

/-- String literals contain no control characters. -/
theorem strLit_ge32 (s : List Char) : ∀ x ∈ strLit s, 32 ≤ x.toNat := by
  intro x hx
  rw [strLit] at hx
  rcases List.mem_cons.mp hx with rfl | hx
  · decide
  · rcases List.mem_append.mp hx with hx | hx
    · exact escStr_ge32 s x hx
    · simp at hx
      subst hx
      decide

mutual
/-- Serialized values contain no control characters: everything below
code point 32 is escaped. -/
theorem stringifyJ_ge32 : ∀ (j : Json), ∀ c ∈ stringifyJ j, 32 ≤ c.toNat
  | .null => by
    intro c hc
    rw [show stringifyJ Json.null = ['n', 'u', 'l', 'l'] from rfl] at hc
    fin_cases hc <;> decide
  | .bool true => by
    intro c hc
    rw [show stringifyJ (Json.bool true) = ['t', 'r', 'u', 'e'] from rfl] at hc
    fin_cases hc <;> decide
  | .bool false => by
    intro c hc
    rw [show stringifyJ (Json.bool false) = ['f', 'a', 'l', 's', 'e'] from rfl] at hc
    fin_cases hc <;> decide
  | .num m e => fun c hc => numChars_ge32 m e c hc
  | .str s => fun c hc => strLit_ge32 s c hc
  | .arr xs => by
    intro c hc
    rw [show stringifyJ (.arr xs) = '[' :: stringifyL xs ++ [']'] from rfl] at hc
    rcases List.mem_cons.mp hc with rfl | hc
    · decide
    · rcases List.mem_append.mp hc with hc | hc
      · exact stringifyL_ge32 xs c hc
      · simp at hc
        subst hc
        decide
  | .obj fs => by
    intro c hc
    rw [show stringifyJ (.obj fs) = '{' :: stringifyO fs ++ ['}'] from rfl] at hc
    rcases List.mem_cons.mp hc with rfl | hc
    · decide
    · rcases List.mem_append.mp hc with hc | hc
      · exact stringifyO_ge32 fs c hc
      · simp at hc
        subst hc
        decide

/-- Serialized element lists contain no control characters. -/
theorem stringifyL_ge32 : ∀ (xs : JsonL), ∀ c ∈ stringifyL xs, 32 ≤ c.toNat
  | .nil => by intro c hc; cases hc
  | .cons x .nil => by
    intro c hc
    rw [show stringifyL (.cons x .nil) = stringifyJ x from rfl] at hc
    exact stringifyJ_ge32 x c hc
  | .cons x (.cons y tl) => by
    intro c hc
    rw [show stringifyL (.cons x (.cons y tl))
      = stringifyJ x ++ ',' :: stringifyL (.cons y tl) from rfl] at hc
    rcases List.mem_append.mp hc with hc | hc
    · exact stringifyJ_ge32 x c hc
    · rcases List.mem_cons.mp hc with rfl | hc
      · decide
      · exact stringifyL_ge32 (.cons y tl) c hc

/-- Serialized member lists contain no control characters. -/
theorem stringifyO_ge32 : ∀ (fs : JsonO), ∀ c ∈ stringifyO fs, 32 ≤ c.toNat
  | .nil => by intro c hc; cases hc
  | .cons k v .nil => by
    intro c hc
    rw [show stringifyO (.cons k v .nil) = strLit k ++ ':' :: stringifyJ v from rfl] at hc
    rcases List.mem_append.mp hc with hc | hc
    · exact strLit_ge32 k c hc
    · rcases List.mem_cons.mp hc with rfl | hc
      · decide
      · exact stringifyJ_ge32 v c hc
  | .cons k v (.cons k2 v2 tl) => by
    intro c hc
    rw [show stringifyO (.cons k v (.cons k2 v2 tl))
      = strLit k ++ ':' :: stringifyJ v ++ ',' :: stringifyO (.cons k2 v2 tl) from rfl] at hc
    rcases List.mem_append.mp hc with hc | hc
    · rcases List.mem_append.mp hc with hc | hc
      · exact strLit_ge32 k c hc
      · rcases List.mem_cons.mp hc with rfl | hc
        · decide
        · exact stringifyJ_ge32 v c hc
    · rcases List.mem_cons.mp hc with rfl | hc
      · decide
      · exact stringifyO_ge32 (.cons k2 v2 tl) c hc
end

/-- Encoded bytes of a control-free string avoid the control range: ASCII
bytes keep their value and continuation or lead bytes are at least 128. -/
theorem utf8Encode_no_ctl (l : List Char) (h : ∀ c ∈ l, 32 ≤ c.toNat) :
    ∀ b ∈ utf8Encode l, 32 ≤ b := by
  induction l with
  | nil => intro b hb; cases hb
  | cons c cs ih =>
    intro b hb
    rw [utf8Encode] at hb
    rcases List.mem_append.mp hb with hb | hb
    · have hc := h c (by simp)
      rw [utf8EncodeChar] at hb
      by_cases h1 : c.toNat < 0x80
      · rw [if_pos h1] at hb
        simp at hb
        omega
      · rw [if_neg h1] at hb
        by_cases h2 : c.toNat < 0x800
        · rw [if_pos h2] at hb
          rcases List.mem_cons.mp hb with rfl | hb
          · omega
          · simp at hb
            omega
        · rw [if_neg h2] at hb
          by_cases h3 : c.toNat < 0x10000
          · rw [if_pos h3] at hb
            rcases List.mem_cons.mp hb with rfl | hb
            · omega
            · simp at hb
              rcases hb with rfl | rfl <;> omega
          · rw [if_neg h3] at hb
            rcases List.mem_cons.mp hb with rfl | hb
            · omega
            · simp at hb
              rcases hb with rfl | rfl | rfl <;> omega
    · exact ih (fun x hx => h x (by simp [hx])) b hb

/-- The wire line of a message contains no line feed byte. -/
theorem encLine_no_lf (m : Json) : ∀ b ∈ encLine m, b ≠ 10 := by
  intro b hb
  have := utf8Encode_no_ctl (stringifyJ m) (stringifyJ_ge32 m) b hb
  omega

/-- Stripping a trailing carriage return from a control-free string is the
identity. -/
theorem stripCr_ge32 (l : List Char) (h : ∀ c ∈ l, 32 ≤ c.toNat) :
    stripCr l = l := by
  rw [stripCr]
  match hl : l.getLast? with
  | none => rfl
  | some c =>
    simp only []
    have hc := h c (List.mem_of_getLast?_eq_some hl)
    rw [if_neg (by omega)]

/-- Decoding the wire line of a well-formed message that the schema maps to
itself delivers exactly that message. -/
theorem lineToMessage_encLine (m : Json) (hwf : wfJ m = true) :
    lineToMessage (encLine m) = .ok (safeParseMessage m) := by
  rw [lineToMessage, encLine, utf8Decode_encode,
    stripCr_ge32 _ (stringifyJ_ge32 m), parseJson_stringify m hwf]

/-- A list without the separator does not split. -/
theorem splitAtFirst_eq_none (x : Nat) (b : List Nat) (h : x ∉ b) :
    splitAtFirst x b = none := by
  induction b with
  | nil => rfl
  | cons c cs ih =>
    rw [splitAtFirst]
    rw [if_neg (by intro hc; exact h (by simp [hc]))]
    rw [ih (fun hc => h (by simp [hc]))]
    rfl

/-- Splitting at an explicitly placed first separator. -/
theorem splitAtFirst_append (x : Nat) (pre post : List Nat) (h : x ∉ pre) :
    splitAtFirst x (pre ++ x :: post) = some (pre, post) := by
  induction pre with
  | nil => simp [splitAtFirst]
  | cons c cs ih =>
    rw [List.cons_append, splitAtFirst]
    rw [if_neg (by intro hc; exact h (by simp [hc]))]
    rw [ih (fun hc => h (by simp [hc]))]
    rfl

/-- Soundness of the split: the two parts reassemble the input around the
first separator, which the prefix avoids. -/
theorem splitAtFirst_sound (x : Nat) (b : List Nat) :
    ∀ pre post, splitAtFirst x b = some (pre, post) →
      b = pre ++ x :: post ∧ x ∉ pre := by
  induction b with
  | nil => intro pre post h; cases h
  | cons c cs ih =>
    intro pre post h
    rw [splitAtFirst] at h
    by_cases hc : c = x
    · rw [if_pos hc] at h
      simp only [Option.some.injEq, Prod.mk.injEq] at h
      obtain ⟨h1, h2⟩ := h
      subst h1
      subst h2
      exact ⟨by rw [hc]; simp, by simp⟩
    · rw [if_neg hc] at h
      rcases hs : splitAtFirst x cs with _ | ⟨pre1, post1⟩
      · rw [hs] at h; cases h
      · rw [hs] at h
        simp only [Option.map_some', Option.some.injEq, Prod.mk.injEq] at h
        obtain ⟨h1, h2⟩ := h
        subst h1
        subst h2
        obtain ⟨hb, hn⟩ := ih pre1 post1 hs
        refine ⟨by rw [hb]; rfl, ?_⟩
        intro hm
        rcases List.mem_cons.mp hm with h | h
        · exact hc h.symm
        · exact hn h

/-- The drain result does not depend on the fuel once the fuel exceeds the
buffer length. -/
theorem drainAux_fuel (f : Nat) : ∀ g b, List.length b < f → List.length b < g →
    drainAux f b = drainAux g b := by
  induction f with
  | zero => intro g b hf _; exact absurd hf (Nat.not_lt_zero _)
  | succ f ih =>
    intro g b hf hg
    match g, hg with
    | g + 1, hg =>
      rw [drainAux, drainAux]
      rcases hs : splitAtFirst 10 b with _ | ⟨pre, post⟩
      · rfl
      · obtain ⟨hb, _⟩ := splitAtFirst_sound 10 b pre post hs
        have hlen : List.length post < List.length b := by
          rw [hb]; simp; omega
        simp only []
        rw [ih g post (by omega) (by omega)]

/-- Fuel irrelevance relative to the canonical fuel. -/
theorem drain_fuel (b : List Nat) (f : Nat) (hf : List.length b < f) :
    drainAux f b = drain b :=
  drainAux_fuel f (List.length b + 1) b hf (by omega)

/-- The wire bytes of a concatenated message sequence. -/
theorem encodeStream_append (a b : List Json) :
    encodeStream (a ++ b) = encodeStream a ++ encodeStream b := by
  induction a with
  | nil => rfl
  | cons m ms ih =>
    rw [List.cons_append, encodeStream, encodeStream, ih]
    simp

/-- Draining any prefix of a well-formed message stream succeeds, delivers
the fully contained messages in order, and leaves a newline-free buffer
that is a prefix of the remaining stream. -/
theorem drain_prefix : ∀ (rem : List Json),
    (∀ m ∈ rem, wfJ m = true ∧ safeParseMessage m = some m) →
    ∀ b t, b ++ t = encodeStream rem →
      ∃ ms1 ms2 left, rem = ms1 ++ ms2 ∧ drain b = .ok (ms1, left) ∧
        (10 : Nat) ∉ left ∧ left ++ t = encodeStream ms2
  | [], _ => by
    intro b t hbt
    rw [show encodeStream [] = [] from rfl] at hbt
    rcases List.append_eq_nil.mp hbt with ⟨rfl, rfl⟩
    exact ⟨[], [], [], rfl, rfl, by simp, rfl⟩
  | m :: ms, hgood => by
    intro b t hbt
    have hgm := hgood m (by simp)
    have hgms : ∀ x ∈ ms, wfJ x = true ∧ safeParseMessage x = some x :=
      fun x hx => hgood x (by simp [hx])
    have hlfm : (10 : Nat) ∉ encLine m := by
      intro hmem
      exact encLine_no_lf m 10 hmem rfl
    by_cases h10 : (10 : Nat) ∈ b
    · rw [show encodeStream (m :: ms) = encLine m ++ 10 :: encodeStream ms from rfl] at hbt
      rcases List.append_eq_append_iff.mp hbt with ⟨a2, ha1, _⟩ | ⟨c2, hc1, hc2⟩
      · exfalso
        exact hlfm (ha1 ▸ List.mem_append_left a2 h10)
      · match c2, hc2 with
        | [], hc2 =>
          exfalso
          rw [List.append_nil] at hc1
          exact hlfm (hc1 ▸ h10)
        | x :: c3, hc2 =>
          rw [List.cons_append] at hc2
          injection hc2 with h1 h2
          subst h1
          have hb : b = encLine m ++ 10 :: c3 := hc1
          have hs : splitAtFirst 10 b = some (encLine m, c3) := by
            rw [hb]
            exact splitAtFirst_append 10 (encLine m) c3 hlfm
          have hlm : lineToMessage (encLine m) = .ok (some m) := by
            rw [lineToMessage_encLine m hgm.1, hgm.2]
          obtain ⟨ms1, ms2, left, hrem, hdc3, hleft10, hleftt⟩ :=
            drain_prefix ms hgms c3 t h2.symm
          have hlen : List.length c3 < List.length b := by
            rw [hb]
            simp only [List.length_append, List.length_cons]
            omega
          refine ⟨m :: ms1, ms2, left, by rw [hrem]; rfl, ?_, hleft10, hleftt⟩
          rw [drain, drainAux, hs]
          simp only []
          rw [hlm]
          simp only []
          rw [drain_fuel c3 (List.length b) hlen, hdc3]
    · have hs := splitAtFirst_eq_none 10 b h10
      have hdrain : drain b = .ok ([], b) := by
        rw [drain, drainAux, hs]
      exact ⟨[], m :: ms, b, rfl, hdrain, h10, hbt⟩

/-- Feeding chunks of a well-formed message stream: every fully transmitted
message is delivered in order and the leftover buffer is the newline-free
portion of the bytes not yet consumed. -/
theorem feedChunks_inv : ∀ (cs : List (List Nat)) (buf : List Nat) (rem : List Json),
    (∀ m ∈ rem, wfJ m = true ∧ safeParseMessage m = some m) →
    (10 : Nat) ∉ buf →
    buf ++ joinChunks cs = encodeStream rem →
    ∃ ms1 ms2 left, rem = ms1 ++ ms2 ∧ feedChunks buf cs = .ok (ms1, left) ∧
      (10 : Nat) ∉ left ∧ encodeStream ms1 ++ left = buf ++ joinChunks cs
  | [], buf, rem => by
    intro _ h10 _
    refine ⟨[], rem, buf, rfl, rfl, h10, ?_⟩
    rw [show encodeStream ([] : List Json) = [] from rfl,
      show joinChunks [] = [] from rfl]
    simp
  | c :: cs, buf, rem => by
    intro hgood h10 hbt
    rw [show joinChunks (c :: cs) = c ++ joinChunks cs from rfl] at hbt
    have hbt2 : (buf ++ c) ++ joinChunks cs = encodeStream rem := by
      rw [List.append_assoc]; exact hbt
    obtain ⟨ra, rb, left1, hrem1, hdrain, h10l1, hl1t⟩ :=
      drain_prefix rem hgood (buf ++ c) (joinChunks cs) hbt2
    have hgrb : ∀ x ∈ rb, wfJ x = true ∧ safeParseMessage x = some x :=
      fun x hx => hgood x (by rw [hrem1]; simp [hx])
    obtain ⟨ms1, ms2, left, hrb, hfeed, h10l, henc⟩ :=
      feedChunks_inv cs left1 rb hgrb h10l1 hl1t
    refine ⟨ra ++ ms1, ms2, left, ?_, ?_, h10l, ?_⟩
    · rw [hrem1, hrb, List.append_assoc]
    · rw [feedChunks, hdrain]
      simp only []
      rw [hfeed]
    · have h1 : (buf ++ c) ++ joinChunks cs
          = (encodeStream ra ++ left1) ++ joinChunks cs := by
        rw [hbt2, hrem1, encodeStream_append, List.append_assoc, hl1t]
      have hkey : buf ++ c = encodeStream ra ++ left1 :=
        List.append_cancel_right h1
      rw [encodeStream_append, List.append_assoc, henc, ← List.append_assoc,
        ← hkey, List.append_assoc, show joinChunks (c :: cs) = c ++ joinChunks cs from rfl]

/-! ## The claims -/

/-- C1 (amended): a malformed newline-terminated line makes `readMessage`
THROW (the `JSON.parse` call has no catch), it does not return `null`; but
the buffer has already been advanced past the line, so the following
`readMessage` call returns the valid message of the next line — a corrupted
line aborts neither the buffer positioning nor decoding of later lines. -/
theorem C1_malformed_line_throws_then_recovers (pre post : List Nat) (m : Json)
    (h10 : (10 : Nat) ∉ pre) (hbad : lineToMessage pre = .error ())
    (hwf : wfJ m = true) (hsp : safeParseMessage m = some m) :
    rbReadMessage (some (pre ++ 10 :: (encLine m ++ 10 :: post)))
      = (some (encLine m ++ 10 :: post), .error ()) ∧
    rbReadMessage (some (encLine m ++ 10 :: post)) = (some post, .ok (some m)) := by
  have hlfm : (10 : Nat) ∉ encLine m := fun hmem => encLine_no_lf m 10 hmem rfl
  constructor
  · rw [rbReadMessage, splitAtFirst_append 10 pre _ h10]
    simp only []
    rw [hbad]
  · rw [rbReadMessage, splitAtFirst_append 10 (encLine m) post hlfm]
    simp only []
    rw [lineToMessage_encLine m hwf, hsp]

/-- C1, counterexample to the claimed behaviour: on the spec's own buffer
`bad-json\n{"jsonrpc":"2.0","method":"x","id":1}\n` the first `readMessage`
call raises an error (the model's `Except.error`), it does not return
`null`. -/
theorem C1_counterexample :
    (rbReadMessage (some (strBytes "bad-json\n\x7b\"jsonrpc\":\"2.0\",\"method\":\"x\",\"id\":1\x7d\n"))).2
      = .error () := by
  decide

/-- C1, evaluated: the amended behaviour on the concrete malformed line
`bad-json` followed by the request `{"jsonrpc":"2.0","method":"x","id":1}`. -/
theorem C1_witness :
    rbReadMessage (some (strBytes "bad-json" ++ 10 :: (encLine mw ++ 10 :: [])))
      = (some (encLine mw ++ 10 :: []), .error ()) ∧
    rbReadMessage (some (encLine mw ++ 10 :: [])) = (some [], .ok (some mw)) :=
  C1_malformed_line_throws_then_recovers (strBytes "bad-json") [] mw
    (by decide) (by decide) (by decide) (by decide)

/-- C2: chunk-boundary invariance of the decoder.  For every message
sequence the schema maps to itself and every partition of its serialized
newline-terminated bytes into chunks — any sizes, including one byte at a
time and chunks splitting a multi-byte UTF-8 character — appending each
chunk in order and draining `readMessage` until `null` after each append
delivers exactly the original messages, in order, with an empty buffer
left. -/
theorem C2_chunk_boundary_invariance (msgs : List Json) (cs : List (List Nat))
    (hgood : ∀ m ∈ msgs, wfJ m = true ∧ safeParseMessage m = some m)
    (hcs : joinChunks cs = encodeStream msgs) :
    feedChunks [] cs = .ok (msgs, []) := by
  obtain ⟨ms1, ms2, left, hrem, hfeed, h10, henc⟩ :=
    feedChunks_inv cs [] msgs hgood (by simp) (by simpa using hcs)
  have henc2 : encodeStream ms1 ++ left = encodeStream ms1 ++ encodeStream ms2 := by
    rw [henc]
    simp only [List.nil_append]
    rw [hcs, hrem, encodeStream_append]
  have hleft : left = encodeStream ms2 := List.append_cancel_left henc2
  match ms2, hleft with
  | [], hleft =>
    subst hleft
    rw [show msgs = ms1 from by rw [hrem]; simp]
    exact hfeed
  | m :: ms3, hleft =>
    exfalso
    apply h10
    rw [hleft, show encodeStream (m :: ms3) = encLine m ++ 10 :: encodeStream ms3 from rfl]
    exact List.mem_append_right _ (by simp)

/-- C2, evaluated: the request `{"jsonrpc":"2.0","method":"x","id":1}` fed
one byte at a time is delivered exactly once. -/
theorem C2_witness :
    feedChunks [] ((encodeStream [mw]).map (fun b => [b])) = .ok ([mw], []) :=
  C2_chunk_boundary_invariance [mw] ((encodeStream [mw]).map (fun b => [b]))
    (by decide) (by decide)

/-- C10: every `readMessage` call that returns a message consumed the first
newline-terminated line: the buffer it leaves is exactly the suffix after
the first newline, the removed prefix contains no newline and is the line
the message was decoded from — so a given input line can be returned at
most once over any call sequence. -/
theorem C10_consumed_line_removed (b : List Nat) (m : Json)
    (h : (rbReadMessage (some b)).2 = .ok (some m)) :
    ∃ pre post, b = pre ++ 10 :: post ∧ (10 : Nat) ∉ pre ∧
      (rbReadMessage (some b)).1 = some post ∧ lineToMessage pre = .ok (some m) := by
  rcases hs : splitAtFirst 10 b with _ | ⟨pre, post⟩
  · exfalso
    rw [rbReadMessage, hs] at h
    simp only [] at h
    exact Option.noConfusion (Except.ok.inj h)
  · obtain ⟨hb, h10⟩ := splitAtFirst_sound 10 b pre post hs
    refine ⟨pre, post, hb, h10, ?_, ?_⟩
    · rw [rbReadMessage, hs]
    · have heq : (rbReadMessage (some b)).2 = lineToMessage pre := by
        rw [rbReadMessage, hs]
      rw [heq] at h
      exact h

/-- C10, evaluated: reading the request line off a buffer with trailing
bytes leaves exactly those trailing bytes. -/
theorem C10_witness :
    ∃ pre post, encLine mw ++ 10 :: strBytes "tail" = pre ++ 10 :: post ∧
      (10 : Nat) ∉ pre ∧
      (rbReadMessage (some (encLine mw ++ 10 :: strBytes "tail"))).1 = some post ∧
      lineToMessage pre = .ok (some mw) :=
  C10_consumed_line_removed (encLine mw ++ 10 :: strBytes "tail") mw (by decide)

/-- C3: correlation is by id, not by arrival order.  Registering two
pending slots under distinct id keys and then delivering the two responses
in reverse order resolves each slot with exactly the response carrying its
own id. -/
theorem C3_correlation_by_id (k1 k2 : JsKey) (s1 s2 : Nat) (o1 o2 : JsonO)
    (id1 id2 : Json) (hk : k1 ≠ k2) (hs : s1 ≠ s2)
    (h1 : objGet o1 idK = some id1) (hc1 : canonKey id1 = some k1)
    (h2 : objGet o2 idK = some id2) (hc2 : canonKey id2 = some k2) :
    slotResult (clientOnMessage (clientOnMessage
        (registerPending (registerPending ⟨[], []⟩ k1 s1) k2 s2)
        (.obj o2)) (.obj o1)) s1 = some (.obj o1) ∧
    slotResult (clientOnMessage (clientOnMessage
        (registerPending (registerPending ⟨[], []⟩ k1 s1) k2 s2)
        (.obj o2)) (.obj o1)) s2 = some (.obj o2) := by
  have hp : (registerPending (registerPending ⟨[], []⟩ k1 s1) k2 s2)
      = ⟨[(k1, s1), (k2, s2)], []⟩ := by
    simp [registerPending, mapSet, hk]
  have hstep1 : clientOnMessage ⟨[(k1, s1), (k2, s2)], []⟩ (.obj o2)
      = ⟨[(k1, s1)], [(s2, .obj o2)]⟩ := by
    simp [clientOnMessage, h2, hc2, mapGet, mapDelete, hk]
  have hstep2 : clientOnMessage ⟨[(k1, s1)], [(s2, .obj o2)]⟩ (.obj o1)
      = ⟨[], [(s1, .obj o1), (s2, .obj o2)]⟩ := by
    simp [clientOnMessage, h1, hc1, mapGet, mapDelete]
  rw [hp, hstep1, hstep2]
  constructor
  · simp [slotResult, List.find?]
  · simp [slotResult, List.find?, hs]

/-- C3, evaluated: slots 11 and 22 for ids 1 and 2 with the responses
delivered as id 2 first, id 1 second. -/
theorem C3_witness :
    slotResult (clientOnMessage (clientOnMessage
        (registerPending (registerPending ⟨[], []⟩ (JsKey.num 1 0) 11) (JsKey.num 2 0) 22)
        (.obj respW2)) (.obj respW1)) 11 = some (.obj respW1) ∧
    slotResult (clientOnMessage (clientOnMessage
        (registerPending (registerPending ⟨[], []⟩ (JsKey.num 1 0) 11) (JsKey.num 2 0) 22)
        (.obj respW2)) (.obj respW1)) 22 = some (.obj respW2) :=
  C3_correlation_by_id (JsKey.num 1 0) (JsKey.num 2 0) 11 22 respW1 respW2
    (.num 1 0) (.num 2 0) (by decide) (by decide) (by decide) (by decide)
    (by decide) (by decide)

/-- C4 (amended): `close()` only drops the subprocess reference and clears
the read buffer; it never touches the correlation state, so an outstanding
pending slot stays registered and unresolved after `close()` — the caller's
await is NOT completed with a transport-closed error. -/
theorem C4_close_leaves_pending_untouched (st : TransportClientState) :
    (transportClose st).client = st.client ∧
    (transportClose st).subProcessRunning = false ∧
    (transportClose st).readBuffer = none :=
  ⟨rfl, rfl, rfl⟩

/-- C4, counterexample to the claimed behaviour: with one request pending
in slot 5, `close()` leaves the entry pending and the slot unresolved, so
that caller's await never completes. -/
theorem C4_counterexample :
    (transportClose ⟨true, none, ⟨[(JsKey.num 1 0, 5)], []⟩⟩).client.pending
      = [(JsKey.num 1 0, 5)] ∧
    slotResult (transportClose ⟨true, none, ⟨[(JsKey.num 1 0, 5)], []⟩⟩).client 5
      = none :=
  ⟨rfl, rfl⟩

/-- Lookup after `Map.set` finds the value just stored. -/
theorem mapGet_mapSet_self (m : List (JsKey × Nat)) (k : JsKey) (v : Nat) :
    mapGet (mapSet m k v) k = some v := by
  induction m with
  | nil => simp [mapSet, mapGet]
  | cons p tl ih =>
    obtain ⟨k1, v1⟩ := p
    by_cases h : k1 = k
    · simp [mapSet, mapGet, h]
    · simp [mapSet, mapGet, h, ih]

/-- `Map.set` on a key already present replaces in place: the size does not
grow. -/
theorem length_mapSet_of_mem (m : List (JsKey × Nat)) (k : JsKey) (w v : Nat)
    (h : mapGet m k = some w) :
    List.length (mapSet m k v) = List.length m := by
  induction m with
  | nil => cases h
  | cons p tl ih =>
    obtain ⟨k1, v1⟩ := p
    by_cases hk : k1 = k
    · simp [mapSet, hk]
    · rw [mapGet, if_neg hk] at h
      simp [mapSet, hk, ih h]

/-- C8 (amended): registering a pending entry for an id that is already
pending silently replaces the first resolver with the second — registration
is total (`Map.set`), no `DuplicateId` failure exists: afterwards the id
maps to the second slot, the table has not grown, and nothing else
changed. -/
theorem C8_duplicate_id_silently_replaces (st : ClientState) (k : JsKey)
    (s1 s2 : Nat) :
    mapGet (registerPending (registerPending st k s1) k s2).pending k = some s2 ∧
    List.length (registerPending (registerPending st k s1) k s2).pending
      = List.length (registerPending st k s1).pending ∧
    (registerPending (registerPending st k s1) k s2).resolvedWith
      = st.resolvedWith := by
  refine ⟨?_, ?_, rfl⟩
  · exact mapGet_mapSet_self _ k s2
  · exact length_mapSet_of_mem _ k s1 s2 (mapGet_mapSet_self st.pending k s1)

/-- C8, counterexample to the claimed behaviour: registering id 1 twice
does not fail — the table ends with the single entry for the second
resolver, the first one silently dropped. -/
theorem C8_counterexample :
    (registerPending (registerPending ⟨[], []⟩ (JsKey.num 1 0) 11)
      (JsKey.num 1 0) 22).pending = [(JsKey.num 1 0, 22)] :=
  rfl

/-- C5 (amended): the dispatcher has no catch around `await handler(...)` —
when the registered handler throws, the failure propagates out of the
dispatch into the transport's control flow, and NO error response (no
`-32603` conversion) is produced. -/
theorem C5_handler_failure_escapes (handlers : List (List Char × Handler))
    (o : JsonO) (m : List Char) (h : Handler) (e : Unit)
    (hnot : isJSONRPCNotification (.obj o) = false)
    (hreq : isJSONRPCRequest (.obj o) = true)
    (hm : objGet o methodK = some (.str m))
    (hl : lookupHandler handlers m = some h)
    (hh : h (.obj o) = .error e) :
    dispatchMessage handlers (.obj o) = .error e := by
  rw [dispatchMessage, if_neg (by rw [hnot]; exact Bool.false_ne_true),
    if_pos hreq]
  try simp only []
  rw [hm]
  try simp only []
  rw [hl]
  try simp only []
  rw [hh]

/-- C5, counterexample to the claimed behaviour: a throwing handler for
method `boom` makes the whole dispatch fail (the model's `Except.error`);
no `-32603` error response is sent back. -/
theorem C5_counterexample :
    dispatchMessage [("boom".data, fun _ => .error ())] (.obj reqWO) = .error () := by
  rw [dispatchMessage, if_neg (by decide), if_pos (by decide)]
  rfl

/-- C5, evaluated: the amended behaviour at the concrete request for
`boom`. -/
theorem C5_witness :
    dispatchMessage [("boom".data, fun _ => .error ())] (.obj reqWO) = .error () :=
  C5_handler_failure_escapes [("boom".data, fun _ => .error ())] reqWO
    "boom".data (fun _ => .error ()) () (by decide) (by decide) rfl rfl rfl

/-- C6: a request for a method with no registered handler produces exactly
one sent message: the `-32601` error response carrying the request's id. -/
theorem C6_unknown_method_error_response (handlers : List (List Char × Handler))
    (o : JsonO) (m : List Char) (idv : Json)
    (hnot : isJSONRPCNotification (.obj o) = false)
    (hreq : isJSONRPCRequest (.obj o) = true)
    (hm : objGet o methodK = some (.str m))
    (hid : objGet o idK = some idv)
    (hl : lookupHandler handlers m = none) :
    dispatchMessage handlers (.obj o) = .ok [methodNotFound idv m] ∧
    (∃ ro, methodNotFound idv m = .obj ro ∧ objGet ro idK = some idv ∧
      ∃ eo, objGet ro errorK = some (.obj eo) ∧
        objGet eo codeK = some (.num (-32601) 0)) := by
  constructor
  · rw [dispatchMessage, if_neg (by rw [hnot]; exact Bool.false_ne_true),
      if_pos hreq]
    try simp only []
    rw [hm]
    try simp only []
    rw [hl]
    try simp only []
    rw [hid]
    rfl
  · refine ⟨.cons jsonrpcK (.str ver20) (.cons idK idv
      (.cons errorK (.obj (.cons codeK (.num (-32601) 0)
        (.cons messageK (.str ("Method ".data ++ m ++ " not found".data)) .nil)))
        .nil)), rfl, ?_,
      .cons codeK (.num (-32601) 0)
        (.cons messageK (.str ("Method ".data ++ m ++ " not found".data)) .nil),
      ?_, ?_⟩
    · rw [objGet, if_neg (by decide), objGet, if_pos rfl]
    · rw [objGet, if_neg (by decide), objGet, if_neg (by decide), objGet,
        if_pos rfl]
    · rw [objGet, if_pos rfl]

/-- C6, evaluated: the unregistered method `foo` with id 1 and an empty
handler table. -/
theorem C6_witness :
    dispatchMessage [] (.obj reqW6O) = .ok [methodNotFound (.num 1 0) "foo".data] ∧
    (∃ ro, methodNotFound (.num 1 0) "foo".data = .obj ro ∧
      objGet ro idK = some (.num 1 0) ∧
      ∃ eo, objGet ro errorK = some (.obj eo) ∧
        objGet eo codeK = some (.num (-32601) 0)) :=
  C6_unknown_method_error_response [] reqW6O "foo".data (.num 1 0)
    (by decide) (by decide) rfl rfl rfl

/-- A successful request parse delivers a message whose `method` field
passed the reserved-prefix refinement. -/
theorem spReq_method (j out : Json) (h : safeParseRequest j = some out) :
    ∀ o, out = .obj o → ∀ s, objGet o methodK = some (.str s) →
      rpcReserved s = false := by
  match j with
  | .null => exact Option.noConfusion h
  | .bool b => exact Option.noConfusion h
  | .num a b => exact Option.noConfusion h
  | .str s => exact Option.noConfusion h
  | .arr xs => exact Option.noConfusion h
  | .obj o0 =>
    rw [safeParseRequest] at h
    simp only [] at h
    split at h
    · split at h
      · rename_i m hme
        split at h
        · exact Option.noConfusion h
        · rename_i hnr
          split at h
          · rename_i idv hide
            split at h
            · injection h with h
              intro o ho s hm
              rw [← h] at ho
              injection ho with ho
              subst ho
              rw [objGet, if_neg (by decide), objGet, if_pos rfl] at hm
              injection hm with hm
              injection hm with hm
              subst hm
              simpa using hnr
            · exact Option.noConfusion h
          · rename_i hide
            injection h with h
            intro o ho s hm
            rw [← h] at ho
            injection ho with ho
            subst ho
            rw [objGet, if_neg (by decide), objGet, if_pos rfl] at hm
            injection hm with hm
            injection hm with hm
            subst hm
            simpa using hnr
      · exact Option.noConfusion h
    · exact Option.noConfusion h

/-- A successful notification parse delivers a message whose `method` field
passed the reserved-prefix refinement. -/
theorem spNotif_method (j out : Json) (h : safeParseNotification j = some out) :
    ∀ o, out = .obj o → ∀ s, objGet o methodK = some (.str s) →
      rpcReserved s = false := by
  match j with
  | .null => exact Option.noConfusion h
  | .bool b => exact Option.noConfusion h
  | .num a b => exact Option.noConfusion h
  | .str s => exact Option.noConfusion h
  | .arr xs => exact Option.noConfusion h
  | .obj o0 =>
    rw [safeParseNotification] at h
    split at h
    · split at h
      · rename_i m hme
        split at h
        · exact Option.noConfusion h
        · rename_i hnr
          injection h with h
          intro o ho s hm
          rw [← h] at ho
          injection ho with ho
          subst ho
          rw [objGet, if_neg (by decide), objGet, if_pos rfl] at hm
          injection hm with hm
          injection hm with hm
          subst hm
          simpa using hnr
      · exact Option.noConfusion h
    · exact Option.noConfusion h

/-- The success-response branch never emits a `method` field. -/
theorem spResp_no_method (j out : Json) (h : safeParseResponse j = some out) :
    ∀ o, out = .obj o → objGet o methodK = none := by
  match j with
  | .null => exact Option.noConfusion h
  | .bool b => exact Option.noConfusion h
  | .num a b => exact Option.noConfusion h
  | .str s => exact Option.noConfusion h
  | .arr xs => exact Option.noConfusion h
  | .obj o0 =>
    rw [safeParseResponse] at h
    simp only [] at h
    split at h
    · split at h
      · split at h
        · injection h with h
          intro o ho
          rw [← h] at ho
          injection ho with ho
          subst ho
          rw [objGet, if_neg (by decide)]
          split
          · rw [objGet, if_neg (by decide), objGet, if_neg (by decide)]
            rfl
          · rw [objGet, if_neg (by decide)]
            rfl
        · exact Option.noConfusion h
      · exact Option.noConfusion h
    · exact Option.noConfusion h

/-- The error-response branch never emits a `method` field. -/
theorem spErr_no_method (j out : Json) (h : safeParseError j = some out) :
    ∀ o, out = .obj o → objGet o methodK = none := by
  match j with
  | .null => exact Option.noConfusion h
  | .bool b => exact Option.noConfusion h
  | .num a b => exact Option.noConfusion h
  | .str s => exact Option.noConfusion h
  | .arr xs => exact Option.noConfusion h
  | .obj o0 =>
    rw [safeParseError] at h
    simp only [] at h
    split at h
    · split at h
      · split at h
        · split at h
          · split at h
            · injection h with h
              intro o ho
              rw [← h] at ho
              injection ho with ho
              subst ho
              rw [objGet, if_neg (by decide), objGet, if_neg (by decide),
                objGet, if_neg (by decide)]
              rfl
            · exact Option.noConfusion h
          · exact Option.noConfusion h
        · exact Option.noConfusion h
      · exact Option.noConfusion h
    · exact Option.noConfusion h

/-- C7 (amended): no message the schema delivers ever carries a reserved
`rpc.`-prefixed `method` field (case-insensitively): the request and
notification branches refine it away and the response branches never output
a `method` key.  However, validation does not reject every such input line:
a line with an `rpc.*` method and a valid id is accepted through the
success-response branch with the `method` field stripped, so `readMessage`
does not return `null` for it. -/
theorem C7_reserved_method_never_delivered (j out : Json)
    (h : safeParseMessage j = some out) (o : JsonO) (ho : out = .obj o)
    (s : List Char) (hm : objGet o methodK = some (.str s)) :
    rpcReserved s = false := by
  rw [safeParseMessage] at h
  rcases hr : safeParseRequest j with _ | r
  · rw [hr] at h
    simp only [] at h
    rcases hn : safeParseNotification j with _ | n
    · rw [hn] at h
      simp only [] at h
      rcases hresp : safeParseResponse j with _ | rp
      · rw [hresp] at h
        simp only [] at h
        have hnone := spErr_no_method j out h o ho
        rw [hm] at hnone
        exact Option.noConfusion hnone
      · rw [hresp] at h
        simp only [] at h
        injection h with h
        subst h
        have hnone := spResp_no_method j rp hresp o ho
        rw [hm] at hnone
        exact Option.noConfusion hnone
    · rw [hn] at h
      simp only [] at h
      injection h with h
      subst h
      exact spNotif_method j n hn o ho s hm
  · rw [hr] at h
    simp only [] at h
    injection h with h
    subst h
    exact spReq_method j r hr o ho s hm

/-- C7, counterexample to the claimed behaviour: the line
`{"jsonrpc":"2.0","method":"rpc.internal","id":1}` is NOT rejected —
`readMessage` returns a message (through the success-response branch, with
the reserved `method` stripped), not `null`. -/
theorem C7_counterexample :
    (rbReadMessage (some (strBytes "\x7b\"jsonrpc\":\"2.0\",\"method\":\"rpc.internal\",\"id\":1\x7d\n"))).2
      = .ok (some (.obj (.cons jsonrpcK (.str ver20) (.cons idK (.num 1 0) .nil)))) := by
  decide

/-- C7, evaluated: the delivered request `{"jsonrpc":"2.0","method":"x",
"id":1}` carries a non-reserved method. -/
theorem C7_witness : rpcReserved ['x'] = false :=
  C7_reserved_method_never_delivered mw mw (by decide) mwO rfl ['x'] (by decide)

/-- C9: a line with the `2.0` tag, a valid non-reserved method and an id
value failing the id shape (an empty string, a boolean, ...) is NOT
rejected: the request branch fails on the invalid id, but the notification
branch — which strips unknown keys, `id` among them — accepts it, so the
value is delivered as a Notification with the offending `id` field
removed. -/
theorem C9_invalid_id_accepted_as_notification (o : JsonO) (s : List Char)
    (idv : Json)
    (hjr : objGet o jsonrpcK = some (.str ver20))
    (hme : objGet o methodK = some (.str s))
    (hns : rpcReserved s = false)
    (hid : objGet o idK = some idv)
    (hvi : isValidRpcId idv = false) :
    safeParseMessage (.obj o)
      = some (.obj (.cons jsonrpcK (.str ver20) (.cons methodK (.str s) .nil))) := by
  have hreq : safeParseRequest (.obj o) = none := by
    simp [safeParseRequest, hjr, hme, hns, hid, hvi]
  have hnot : safeParseNotification (.obj o)
      = some (.obj (.cons jsonrpcK (.str ver20) (.cons methodK (.str s) .nil))) := by
    simp [safeParseNotification, hjr, hme, hns]
  rw [safeParseMessage, hreq]
  simp only []
  rw [hnot]

/-- C9, evaluated: the line with method `x` and the invalid id `""` is
delivered as the notification `{"jsonrpc":"2.0","method":"x"}`. -/
theorem C9_witness :
    safeParseMessage (.obj o9)
      = some (.obj (.cons jsonrpcK (.str ver20) (.cons methodK (.str ['x']) .nil))) :=
  C9_invalid_id_accepted_as_notification o9 ['x'] (.str [])
    (by decide) (by decide) (by decide) (by decide) (by decide)
